import Mathlib

/-!
Verification of the Weavy workflow-execution core: graph validation
(`validateDAG`), wave scheduling (`getParallelGroups`), the node
executors (text / image / video passthrough, crop, frame extraction),
the bounded streaming downloader, the duration-probing wrapper, and the
wave-driven execution engine.  Each definition is a shallow embedding of
the corresponding TypeScript function; machine numbers are modelled as
`Nat`/`Int`/`Rat`, fallible code as `Except`, and promise-based code as
explicit state passing.
-/

deriving instance DecidableEq for Except

namespace Weavy












/-- A workflow node as seen by the DAG utilities: only the id matters. -/

structure DAGNode where
  id : String
deriving DecidableEq, Repr

/-- A directed edge between two node ids. -/

structure DAGEdge where
  source : String
  target : String
deriving DecidableEq, Repr

/-- `firstDedupAux seen l` keeps the first occurrence of every element of
`l` that is not already in `seen` — the iteration order of a JavaScript
`Set` built by inserting the elements of `l` in order. -/

def firstDedupAux (seen : List String) : List String → List String
  | [] => []
  | a :: rest =>
    if a ∈ seen then firstDedupAux seen rest
    else a :: firstDedupAux (a :: seen) rest

/-- Insertion-order deduplication, as `new Set(nodes.map(n => n.id))`. -/

def firstDedup (l : List String) : List String :=
  firstDedupAux [] l

/-- The ids of a node list, deduplicated in insertion order. -/

def nodeIdsOf (nodes : List DAGNode) : List String :=
  firstDedup (nodes.map (fun n => n.id))

/-- Adjacency list built from all edges: the targets of edges leaving
`u`, in edge order (`adjacencyList.get(edge.source)!.push(edge.target)`). -/

def adjList (edges : List DAGEdge) (u : String) : List String :=
  (edges.filter (fun e => e.source = u)).map (fun e => e.target)

/-- A directed closed walk through an adjacency function: a nonempty
chain of steps that starts and ends at the same node. -/

def AdjCycle (adj : String → List String) : Prop :=
  ∃ x l, List.Chain (fun u v => v ∈ adj u) x (l ++ [x])

/-- A directed closed walk through the edge list. -/

def HasCycleWalk (edges : List DAGEdge) : Prop :=
  AdjCycle (adjList edges)

/-! ## DAG validator (`validateDAG`) -/

/-- Result record of `validateDAG`: `{ valid: boolean; error?: string }`. -/

structure ValidationResult where
  valid : Bool
  error : Option String
deriving DecidableEq, Repr

/-- The edge loop of `validateDAG`: the first edge whose source or
target is not a known node id produces the dangling-edge error. -/

def checkEdges (ids : List String) : List DAGEdge → Option String
  | [] => none
  | e :: rest =>
    if e.source ∈ ids ∧ e.target ∈ ids then checkEdges ids rest
    else some "Edge references non-existent node"

/-- The neighbor loop of `hasCycle`.  `dfs` is the recursive call at one
less fuel; `stack` already contains the node whose neighbors these are.
Returns the cycle flag and the visited set (the only state that
persists across returns — the recursion stack is popped implicitly by
passing it downward only). -/

def dfsNeighbors (dfs : String → List String → List String → Bool × List String) :
    List String → List String → List String → Bool × List String
  | [], _, visited => (false, visited)
  | nb :: rest, stack, visited =>
    if nb ∈ visited then
      if nb ∈ stack then (true, visited)
      else dfsNeighbors dfs rest stack visited
    else
      match dfs nb visited stack with
      | (true, v') => (true, v')
      | (false, v') => dfsNeighbors dfs rest stack v'

/-- `hasCycle(nodeId)` with explicit state: marks the node visited,
pushes it on the recursion stack, and scans its neighbors.  Fuel bounds
the recursion depth; it is always called with enough fuel to visit
every unvisited node, so the fuel-exhausted branch is unreachable. -/

def dfsVisit (adj : String → List String) :
    Nat → String → List String → List String → Bool × List String
  | 0, _, visited, _ => (false, visited)
  | fuel + 1, nodeId, visited, stack =>
    dfsNeighbors (dfsVisit adj fuel) (adj nodeId) (nodeId :: stack) (nodeId :: visited)

/-- The top-level loop over all node ids: start a DFS from every node
not yet visited, propagating the visited set. -/

def dfsTopLoop (adj : String → List String) (fuel : Nat) :
    List String → List String → Bool
  | [], _ => false
  | nodeId :: rest, visited =>
    if nodeId ∈ visited then dfsTopLoop adj fuel rest visited
    else
      match dfsVisit adj fuel nodeId visited [] with
      | (true, _) => true
      | (false, v') => dfsTopLoop adj fuel rest v'

/-- `validateDAG(nodes, edges)`: reject the first edge naming an
unknown node id, then run cycle detection by DFS from every node. -/

def validateDAG (nodes : List DAGNode) (edges : List DAGEdge) : ValidationResult :=
  let ids := nodeIdsOf nodes
  match checkEdges ids edges with
  | some msg => ⟨false, some msg⟩
  | none =>
    if dfsTopLoop (adjList edges) ids.length ids [] then
      ⟨false, some "Workflow contains a cycle"⟩
    else ⟨true, none⟩

/-! ### DFS soundness: a reported cycle is a real closed walk -/

/-- The recursion stack read bottom-up is a path: each entry has an edge
to the entry pushed after it. -/

def ChainStack (adj : String → List String) : List String → Prop
  | [] => True
  | [_] => True
  | x :: y :: rest => x ∈ adj y ∧ ChainStack adj (y :: rest)

/-! ### DFS completeness: every closed walk is detected.
The fuel argument is justified by the measure `unvis`: the number of
ids not yet visited, which strictly drops at every recursive call. -/

/-- Number of ids not yet visited. -/

def unvis (ids visited : List String) : Nat :=
  (ids.filter (fun x => decide (x ∉ visited))).length

/-- Every member of `V'` outside `vis` was visited during the call that
produced `V'`, so all its neighbors were visited too. -/

def ClosedUnderOff (adj : String → List String) (V vis : List String) : Prop :=
  ∀ p ∈ V, p ∉ vis → ∀ y ∈ adj p, y ∈ V

/-! ## Wave scheduler (`getParallelGroups`) -/

/-- Adjacency used by the scheduler: only edges whose two endpoints are
known node ids are recorded
(`if (nodeIds.has(edge.source) && nodeIds.has(edge.target))`). -/

def adjListP (ids : List String) (edges : List DAGEdge) (u : String) : List String :=
  (edges.filter (fun e => e.source = u ∧ e.source ∈ ids ∧ e.target ∈ ids)).map
    (fun e => e.target)

/-- Initial in-degree of `v`: the number of edges into `v` whose two
endpoints are known node ids. -/

def initInDeg (ids : List String) (edges : List DAGEdge) (v : String) : Nat :=
  (edges.filter (fun e => e.source ∈ ids ∧ e.target ∈ ids ∧ e.target = v)).length

/-- The inner decrement loop: for each neighbor still in `remaining`,
decrement its in-degree entry
(`if (remaining.has(neighbor)) inDegree.set(neighbor, ... - 1)`). -/

def decNeighbors (remaining : List String) :
    List String → (String → Nat) → (String → Nat)
  | [], inDeg => inDeg
  | nb :: rest, inDeg =>
    if nb ∈ remaining then
      decNeighbors remaining rest (Function.update inDeg nb (inDeg nb - 1))
    else decNeighbors remaining rest inDeg

/-- Removal of one wave: delete each member from `remaining` (before its
neighbors are examined, as `remaining.delete(nodeId)` precedes the inner
loop) and decrement the in-degrees of its remaining successors. -/

def removeGroup (adj : String → List String) :
    List String → List String × (String → Nat) → List String × (String → Nat)
  | [], st => st
  | nodeId :: rest, (remaining, inDeg) =>
    let remaining' := remaining.filter (fun x => x ≠ nodeId)
    let inDeg' := decNeighbors remaining' (adj nodeId) inDeg
    removeGroup adj rest (remaining', inDeg')

/-- The `while (remaining.size > 0)` loop: collect every remaining node
of in-degree zero into one wave (`currentGroup`); an empty wave (only
possible on a cyclic input) breaks out defensively.  Fuel bounds the
iteration count and is always at least the number of remaining nodes. -/

def kahnLoop (adj : String → List String) :
    Nat → List String → (String → Nat) → List (List String)
  | 0, _, _ => []
  | fuel + 1, remaining, inDeg =>
    if remaining = [] then []
    else if remaining.filter (fun n => decide (inDeg n = 0)) = [] then []
    else
      (remaining.filter (fun n => decide (inDeg n = 0))) ::
        kahnLoop adj fuel
          (removeGroup adj (remaining.filter (fun n => decide (inDeg n = 0)))
            (remaining, inDeg)).1
          (removeGroup adj (remaining.filter (fun n => decide (inDeg n = 0)))
            (remaining, inDeg)).2

/-- `getParallelGroups(nodes, edges)`: iterative Kahn partitioning into
waves of in-degree-zero nodes. -/

def getParallelGroups (nodes : List DAGNode) (edges : List DAGEdge) :
    List (List String) :=
  let ids := nodeIdsOf nodes
  kahnLoop (adjListP ids edges) ids.length ids (initInDeg ids edges)

/-- In-degree of `v` restricted to edges whose source is still in
`remaining`: the quantity the mutable `inDegree` map tracks. -/

def remInDeg (ids : List String) (edges : List DAGEdge)
    (remaining : List String) (v : String) : Nat :=
  (edges.filter (fun e =>
    e.source ∈ ids ∧ e.target ∈ ids ∧ e.target = v ∧ e.source ∈ remaining)).length

/-! ## Crop executor (`executeCropImageNode` / `cropImageClient`)
The pixel-rectangle computation shared by the server (sharp) and client
(canvas) crop paths. -/

/-- JavaScript `Math.round` on a finite value: `⌊q + 1/2⌋`. -/

def jsRound (q : ℚ) : ℤ := ⌊q + 1 / 2⌋

/-- The crop-rectangle arithmetic of `executeCropImageNode`: round the
four percentages to pixels, clamp the offsets into the image, clamp the
extents to the remaining space, and floor the extents at one pixel.
Returns `(left, top, cropWidth, cropHeight)`. -/

def cropRegion (xPercent yPercent widthPercent heightPercent : ℚ)
    (imgWidth imgHeight : ℕ) : ℤ × ℤ × ℤ × ℤ :=
  let left0 := jsRound (xPercent / 100 * imgWidth)
  let top0 := jsRound (yPercent / 100 * imgHeight)
  let cropWidth0 := jsRound (widthPercent / 100 * imgWidth)
  let cropHeight0 := jsRound (heightPercent / 100 * imgHeight)
  let left := min left0 (max ((imgWidth : ℤ) - 1) 0)
  let top := min top0 (max ((imgHeight : ℤ) - 1) 0)
  let cropWidth := max (min cropWidth0 ((imgWidth : ℤ) - left)) 1
  let cropHeight := max (min cropHeight0 ((imgHeight : ℤ) - top)) 1
  (left, top, cropWidth, cropHeight)

/-! ## Frame-extraction timestamp arithmetic (`executeExtractFrameNode`)
`parseFloat` is modelled on decimal/exponent prefixes over the
rationals; `NaN` becomes `none`. -/

/-- Value of a digit string read left to right. -/

def digitsVal (l : List Char) : ℕ :=
  l.foldl (fun acc c => acc * 10 + (c.toNat - 48)) 0

/-- The syntactic components of a JavaScript float literal prefix:
sign, integer digits, fraction digits, exponent sign and digits. -/

structure FloatTok where
  neg : Bool
  intPart : List Char
  fracPart : List Char
  expNeg : Bool
  expDigits : List Char
deriving DecidableEq, Repr

/-- Split the longest valid float-literal prefix into its components. -/

def tokenizeFloat (l : List Char) : FloatTok :=
  let sgnRest : Bool × List Char :=
    match l with
    | '-' :: rest => (true, rest)
    | '+' :: rest => (false, rest)
    | _ => (false, l)
  let intPart := sgnRest.2.takeWhile Char.isDigit
  let r2 := sgnRest.2.dropWhile Char.isDigit
  let fracRest : List Char × List Char :=
    match r2 with
    | '.' :: rest => (rest.takeWhile Char.isDigit, rest.dropWhile Char.isDigit)
    | _ => ([], r2)
  let expPart : Bool × List Char :=
    match fracRest.2 with
    | 'e' :: '-' :: rest => (true, rest.takeWhile Char.isDigit)
    | 'e' :: '+' :: rest => (false, rest.takeWhile Char.isDigit)
    | 'e' :: rest => (false, rest.takeWhile Char.isDigit)
    | 'E' :: '-' :: rest => (true, rest.takeWhile Char.isDigit)
    | 'E' :: '+' :: rest => (false, rest.takeWhile Char.isDigit)
    | 'E' :: rest => (false, rest.takeWhile Char.isDigit)
    | _ => (false, [])
  ⟨sgnRest.1, intPart, fracRest.1, expPart.1, expPart.2⟩

/-- JavaScript `parseFloat` on the longest valid decimal prefix:
`none` when no digit is found (`NaN`). -/

def parseFloatQ (s : String) : Option ℚ :=
  let t := tokenizeFloat s.data
  if t.intPart = [] ∧ t.fracPart = [] then none
  else
    let base : ℚ :=
      (digitsVal t.intPart : ℚ) + (digitsVal t.fracPart : ℚ) / 10 ^ t.fracPart.length
    let signed : ℚ := if t.neg then -base else base
    let factor : ℚ :=
      if t.expDigits = [] then 1
      else (10 : ℚ) ^ ((if t.expNeg then (-1 : ℤ) else 1) * (digitsVal t.expDigits : ℤ))
    some (signed * factor)

/-- `String.endsWith` via character lists (the built-in one does not
kernel-reduce). -/

def strEndsWith (s sfx : String) : Bool :=
  sfx.data.isSuffixOf s.data

/-- `String.startsWith` via character lists. -/

def strStartsWith (s pre : String) : Bool :=
  pre.data.isPrefixOf s.data

/-- JavaScript `String.replace` with a single-character string pattern:
remove the first occurrence only. -/

def removeFirstCharAux (c : Char) : List Char → List Char
  | [] => []
  | a :: rest => if a = c then rest else a :: removeFirstCharAux c rest

def removeFirstChar (c : Char) (s : String) : String :=
  ⟨removeFirstCharAux c s.data⟩

/-- The seek-time computation of `executeExtractFrameNode` (given the
probed duration): percentage timestamps are validated to [0, 100] and
scaled; absolute timestamps are validated to be ≥ 0 and clamped to
`duration - 0.1` only when they strictly exceed the duration. -/

def computeSeekSeconds (timestamp : String) (duration : ℚ) : Except String ℚ :=
  if strEndsWith timestamp "%" then
    match parseFloatQ (removeFirstChar '%' timestamp) with
    | none => .error ("Invalid percentage timestamp: " ++ timestamp)
    | some percent =>
      if percent < 0 ∨ percent > 100 then
        .error ("Invalid percentage timestamp: " ++ timestamp)
      else .ok (percent / 100 * duration)
  else
    match parseFloatQ (removeFirstChar 's' timestamp) with
    | none => .error ("Invalid timestamp: " ++ timestamp)
    | some seekSeconds =>
      if seekSeconds < 0 then .error ("Invalid timestamp: " ++ timestamp)
      else if seekSeconds > duration then .ok (duration - 1 / 10)
      else .ok seekSeconds

/-! ## Passthrough node executors -/

/-- `executeTextNode`: `node.data?.userMessage as string || ''` — a
missing (or falsy empty) configured message falls back to the empty
string and the executor succeeds. -/

def executeTextNode (userMessage : Option String) : Except String String :=
  match userMessage with
  | none => .ok ""
  | some s => if s = "" then .ok "" else .ok s

/-- `executeImageUploadNode`: throws `'No image uploaded'` when the
configured url is falsy (absent or empty). -/

def executeImageUploadNode (imageUrl : Option String) : Except String String :=
  match imageUrl with
  | none => .error "No image uploaded"
  | some s => if s = "" then .error "No image uploaded" else .ok s

/-- `executeVideoUploadNode`: throws `'No video uploaded'` when the
configured url is falsy (absent or empty). -/

def executeVideoUploadNode (videoUrl : Option String) : Except String String :=
  match videoUrl with
  | none => .error "No video uploaded"
  | some s => if s = "" then .error "No video uploaded" else .ok s

/-! ## Duration probing (`getVideoDuration`) -/

/-- Characters matched by the regex class `\s`. -/

def isWsChar (c : Char) : Bool :=
  c = ' ' ∨ c = '\t' ∨ c = '\n' ∨ c = '\r' ∨ c = '\x0b' ∨ c = '\x0c'

/-- Two mandatory digits (`\d{2}`), returning their value and the rest. -/

def matchTwoDigits : List Char → Option (Nat × List Char)
  | a :: b :: rest =>
    if a.isDigit ∧ b.isDigit then
      some ((a.toNat - 48) * 10 + (b.toNat - 48), rest)
    else none
  | _ => none

/-- Attempt the pattern `Duration:\s+(\d{2}):(\d{2}):(\d{2}\.\d+)` at
the head of the character list, returning hours, minutes, integer
seconds, and the fraction digits. -/

def matchDurationAt (l : List Char) : Option (Nat × Nat × Nat × List Char) :=
  if "Duration:".data.isPrefixOf l then
    let r0 := l.drop 9
    if r0.takeWhile isWsChar = [] then none
    else
      match matchTwoDigits (r0.dropWhile isWsChar) with
      | none => none
      | some (hh, r2) =>
        match r2 with
        | ':' :: r3 =>
          match matchTwoDigits r3 with
          | none => none
          | some (mm, r4) =>
            match r4 with
            | ':' :: r5 =>
              match matchTwoDigits r5 with
              | none => none
              | some (ss, r6) =>
                match r6 with
                | '.' :: r7 =>
                  if r7.takeWhile Char.isDigit = [] then none
                  else some (hh, mm, ss, r7.takeWhile Char.isDigit)
                | _ => none
            | _ => none
        | _ => none
  else none

/-- Leftmost regex search: try the pattern at every position. -/

def findDuration : List Char → Option (Nat × Nat × Nat × List Char)
  | [] => none
  | c :: rest =>
    match matchDurationAt (c :: rest) with
    | some r => some r
    | none => findDuration rest

/-- JavaScript `String.includes` over character lists. -/

def containsSub (p : List Char) : List Char → Bool
  | [] => p.isEmpty
  | c :: rest => p.isPrefixOf (c :: rest) || containsSub p rest

/-- The two ways the `getVideoDuration` promise can settle; only the
first `resolve`/`reject` executed counts. -/

inductive Settle where
  | res (v : ℚ)
  | rej (msg : String)
deriving DecidableEq, Repr

/-- `getVideoDuration` of the execution library, as a function of the
captured stderr text.  When the Duration regex matches, the parsed
duration is resolved.  When it does not, and stderr lacks
`'Invalid data found'`, the code executes `resolve(0)` before its
`reject(...)` line, and a promise keeps its first settlement — so the
call resolves with 0. -/

def getVideoDuration (stderrText : String) : Settle :=
  match findDuration stderrText.data with
  | some (hh, mm, ss, frac) =>
    .res ((hh : ℚ) * 3600 + (mm : ℚ) * 60 +
      ((ss : ℚ) + (digitsVal frac : ℚ) / 10 ^ frac.length))
  | none =>
    if containsSub "Invalid data found".data stderrText.data then
      .rej "Invalid video file"
    else
      .res 0

/-! ## Bounded streaming downloader (`downloadVideo`)
Two implementations exist: one in the execution library and one in the
trigger task.  The network is modelled as the response's chunk sizes in
arrival order; the destination write stream as opened/closed flags. -/

/-- Observable shape of the HTTP response for the downloader. -/

structure HttpResponse where
  ok : Bool
  contentLength : Option Nat
  hasBody : Bool
  chunks : List Nat
deriving DecidableEq, Repr

/-- Final state of one downloader call: the result, whether the
destination write stream was ever opened, whether it was ended and
flushed (`fileStream.end()` + `finish`), the network bytes consumed,
and the bytes written to the file. -/

structure DLState where
  result : Except String Unit
  opened : Bool
  closed : Bool
  consumed : Nat
  written : Nat
deriving DecidableEq, Repr

/-- The chunk loop shared by both implementations: add each chunk to
the running count, throw the moment the count exceeds `maxBytes`
(before writing that chunk), otherwise write the chunk and continue. -/

def streamChunks (errMsg : String) (maxBytes : Nat) :
    List Nat → Nat → Nat → Except String Unit × Nat × Nat
  | [], consumed, written => (.ok (), consumed, written)
  | c :: rest, consumed, written =>
    if maxBytes < consumed + c then (.error errMsg, consumed + c, written)
    else streamChunks errMsg maxBytes rest (consumed + c) (written + c)

/-- `downloadVideo` of the execution library: no content-length check;
the write stream is created before the body reader is taken, and on the
byte-cap path the function throws without ending the write stream. -/

def downloadVideoExec (resp : HttpResponse) (maxBytes : Nat) : DLState :=
  if ¬ resp.ok then ⟨.error "Failed to download", false, false, 0, 0⟩
  else if ¬ resp.hasBody then ⟨.error "No response body", true, false, 0, 0⟩
  else
    match streamChunks "Video too large" maxBytes resp.chunks 0 0 with
    | (.ok _, con, wr) => ⟨.ok (), true, true, con, wr⟩
    | (.error m, con, wr) => ⟨.error m, true, false, con, wr⟩

/-- `downloadVideo` of the trigger task: a declared content-length
above `maxBytes` is rejected before the stream is opened or any body
byte is read; the body check also precedes stream creation. -/

def downloadVideoTask (resp : HttpResponse) (maxBytes : Nat) : DLState :=
  if ¬ resp.ok then ⟨.error "Failed to download video", false, false, 0, 0⟩
  else
    match resp.contentLength with
    | some len =>
      if maxBytes < len then
        ⟨.error s!"Video size ({len} bytes) exceeds limit of {maxBytes} bytes.",
          false, false, 0, 0⟩
      else downloadVideoTaskBody resp maxBytes
    | none => downloadVideoTaskBody resp maxBytes
where
  downloadVideoTaskBody (resp : HttpResponse) (maxBytes : Nat) : DLState :=
    if ¬ resp.hasBody then ⟨.error "No response body", false, false, 0, 0⟩
    else
      match streamChunks s!"Download exceeded max size limit of {maxBytes} bytes."
          maxBytes resp.chunks 0 0 with
      | (.ok _, con, wr) => ⟨.ok (), true, true, con, wr⟩
      | (.error m, con, wr) => ⟨.error m, true, false, con, wr⟩

/-! ## Frame-extraction executor (`executeExtractFrameNode`) -/

/-- `[a-zA-Z0-9]`. -/

def isAlnumChar (c : Char) : Bool :=
  c.isAlpha ∨ c.isDigit

/-- Lazy scan for `(.+?)\.[a-zA-Z0-9]+$` from a fixed start: accumulate
capture characters (`.` does not match a newline) until the first dot
followed by a nonempty alphanumeric run that ends the string. -/

def lazyExtAux (acc : List Char) : List Char → Option (List Char)
  | [] => none
  | c :: rest =>
    if c = '.' ∧ acc ≠ [] ∧ rest ≠ [] ∧ rest.all isAlnumChar then
      some acc.reverse
    else if c = '\n' then none
    else lazyExtAux (c :: acc) rest

/-- The optional version segment `(?:v\d+\/)?` after `/upload/`. -/

def matchVersionGroup (l : List Char) : Option (List Char) :=
  match l with
  | 'v' :: rest =>
    if rest.takeWhile Char.isDigit = [] then none
    else
      match rest.dropWhile Char.isDigit with
      | '/' :: r2 => some r2
      | _ => none
  | _ => none

/-- Match `(?:v\d+\/)?(.+?)\.[a-zA-Z0-9]+$` on the text following
`/upload/`, preferring the alternative that consumes the version
segment, as a backtracking regex engine does. -/

def matchAfterUpload (l : List Char) : Option (List Char) :=
  match matchVersionGroup l with
  | some r =>
    match lazyExtAux [] r with
    | some cap => some cap
    | none => lazyExtAux [] l
  | none => lazyExtAux [] l

/-- Leftmost search for the pattern
`\/upload\/(?:v\d+\/)?(.+?)\.[a-zA-Z0-9]+$`, returning the capture. -/

def uploadPidScan : List Char → Option (List Char)
  | [] => none
  | c :: rest =>
    match
      (if "/upload/".data.isPrefixOf (c :: rest) then
        matchAfterUpload ((c :: rest).drop 8)
      else none) with
    | some cap => some cap
    | none => uploadPidScan rest

/-- The public-id extraction regex of `executeExtractFrameNode`. -/

def uploadPublicId (s : String) : Option String :=
  (uploadPidScan s.data).map (fun cs => ⟨cs⟩)

/-- Outcomes of the external collaborators the extraction path uses:
the bounded download and the duration probe. -/

structure ExtractEnv where
  download : Except String Unit
  probe : Except String ℚ

/-- What the extraction executor did and returned:
`cloudinaryFrame` is the transformation-URL short-circuit,
`extractedAt` means the local ffmpeg path ran with the given seek. -/

inductive ExtractOutcome where
  | cloudinaryFrame (publicId : String) (timestamp : String)
  | extractedAt (seek : ℚ)
  | failed (msg : String)
deriving DecidableEq, Repr

structure ExtractTrace where
  outcome : ExtractOutcome
  downloaded : Bool
  probed : Bool
deriving DecidableEq, Repr

/-- `(node.data?.timestamp as string) || '50%'`. -/

def timestampOrDefault (cfg : Option String) : String :=
  match cfg with
  | none => "50%"
  | some t => if t = "" then "50%" else t

/-- `videoInput.split(',')[1]`: the segment after the first comma. -/

def splitCommaSecond (l : List Char) : Option (List Char) :=
  match l.dropWhile (fun c => c ≠ ',') with
  | ',' :: rest => some (rest.takeWhile (fun c => c ≠ ','))
  | _ => none

/-- The probe-then-seek tail of the local extraction path. -/

def probeAndSeek (timestamp : String) (env : ExtractEnv) (downloaded : Bool) :
    ExtractTrace :=
  match env.probe with
  | .error m => ⟨.failed m, downloaded, true⟩
  | .ok duration =>
    match computeSeekSeconds timestamp duration with
    | .error m => ⟨.failed m, downloaded, true⟩
    | .ok sk => ⟨.extractedAt sk, downloaded, true⟩

/-- The local (non-Cloudinary) extraction path: materialize the video
from a data URL or by bounded download, then probe and seek. -/

def extractLocal (url timestamp : String) (env : ExtractEnv) : ExtractTrace :=
  if strStartsWith url "data:" then
    match splitCommaSecond url.data with
    | none => ⟨.failed "Invalid base64 data URL", false, false⟩
    | some seg =>
      if seg = [] then ⟨.failed "Invalid base64 data URL", false, false⟩
      else probeAndSeek timestamp env false
  else if strStartsWith url "http" then
    match env.download with
    | .error m => ⟨.failed m, true, false⟩
    | .ok _ => probeAndSeek timestamp env true
  else ⟨.failed "Invalid video input — expected base64 data URL or HTTP URL", false, false⟩

/-- `executeExtractFrameNode` as a function of the upstream video
reference, the configured timestamp, and the collaborator outcomes. -/

def executeExtractFrame (videoInput : Option String) (timestampCfg : Option String)
    (env : ExtractEnv) : ExtractTrace :=
  match videoInput with
  | none => ⟨.failed "No video input connected", false, false⟩
  | some url =>
    if url = "" then ⟨.failed "No video input connected", false, false⟩
    else
      if containsSub "cloudinary.com".data url.data then
        match uploadPublicId url with
        | some pid =>
          ⟨.cloudinaryFrame pid (timestampOrDefault timestampCfg), false, false⟩
        | none => extractLocal url (timestampOrDefault timestampCfg) env
      else extractLocal url (timestampOrDefault timestampCfg) env

/-! ## Execution engine (`executeWorkflowNodes`)
Wave-driven execution with per-node logs.  The per-node executor and
the measured durations are oracles; a wave's nodes all run (as with
`Promise.all`, a failing sibling does not cancel the others), and the
first wave containing a failure aborts the run before any later wave is
dispatched. -/

inductive NodeStatus where
  | pending
  | running
  | success
  | failed
  | skipped
deriving DecidableEq, Repr

inductive RunStatus where
  | completed
  | failed
deriving DecidableEq, Repr

/-- Per-run engine log state: per-node status, error message, duration,
and the shared output map. -/

structure EngineState where
  status : String → NodeStatus
  error : String → Option String
  duration : String → Option Nat
  outputs : String → Option String

/-- The engine's fixed collaborators: the per-node executor (given the
node id and its upstream `(sourceId, output?)` pairs), the measured
durations, the known node ids (`nodeMap`), and the edge list. -/

structure EngineCtx where
  exec : String → List (String × Option String) → Except String String
  durOf : String → Nat
  nodeIds : List String
  edges : List DAGEdge

/-- Upstream data for a node: incoming edges paired with the current
output of each source. -/

def upstreamOf (ctx : EngineCtx) (outputs : String → Option String)
    (n : String) : List (String × Option String) :=
  (ctx.edges.filter (fun e => e.target = n)).map (fun e => (e.source, outputs e.source))

/-- Run one node: unknown ids are skipped silently (`if (!node) return`);
otherwise the executor's result is recorded as SUCCESS (with output and
duration) or FAILED (with error message and duration).  The flag
reports whether this node failed. -/

def stepNode (ctx : EngineCtx) (n : String) (st : EngineState) : Bool × EngineState :=
  if n ∈ ctx.nodeIds then
    match ctx.exec n (upstreamOf ctx st.outputs n) with
    | .ok out =>
      (false,
        { st with
          status := Function.update st.status n .success
          outputs := Function.update st.outputs n (some out)
          duration := Function.update st.duration n (some (ctx.durOf n)) })
    | .error msg =>
      (true,
        { st with
          status := Function.update st.status n .failed
          error := Function.update st.error n (some msg)
          duration := Function.update st.duration n (some (ctx.durOf n)) })
  else (false, st)

/-- Run a whole wave: every member executes and records its state; the
flag reports whether any member failed. -/

def runWave (ctx : EngineCtx) : List String → EngineState → Bool × EngineState
  | [], st => (false, st)
  | n :: rest, st =>
    let r := stepNode ctx n st
    let r2 := runWave ctx rest r.2
    (r.1 || r2.1, r2.2)

/-- Run the waves in order; the first wave containing a failure marks
the run FAILED and no later wave is dispatched. -/

def runWaves (ctx : EngineCtx) : List (List String) → EngineState → RunStatus × EngineState
  | [], st => (.completed, st)
  | g :: rest, st =>
    let r := runWave ctx g st
    if r.1 then (.failed, r.2) else runWaves ctx rest r.2

/-- All node logs start PENDING (created by the runs route). -/

def initEngineState : EngineState :=
  ⟨fun _ => .pending, fun _ => none, fun _ => none, fun _ => none⟩

/-- `executeWorkflowNodes(runId, nodes, edges, parallelGroups)`. -/

def executeWorkflowNodes (ctx : EngineCtx) (groups : List (List String)) :
    RunStatus × EngineState :=
  runWaves ctx groups initEngineState

/-- State after the first `k` waves, ignoring failure aborts (used only
to phrase hypotheses about a prefix of successful waves). -/

def stateAfterN (ctx : EngineCtx) : List (List String) → EngineState → Nat → EngineState
  | _, st, 0 => st
  | [], st, _ + 1 => st
  | g :: rest, st, k + 1 => stateAfterN ctx rest (runWave ctx g st).2 k

/-- The executor outcome a given wave member sees at its turn (the
state includes its earlier siblings' effects); `none` for non-members
and unknown ids. -/

def nodeOutcomeInWave (ctx : EngineCtx) :
    List String → EngineState → String → Option (Except String String)
  | [], _, _ => none
  | m :: rest, st, n =>
    if m = n then
      (if m ∈ ctx.nodeIds then some (ctx.exec m (upstreamOf ctx st.outputs m))
       else none)
    else nodeOutcomeInWave ctx rest (stepNode ctx m st).2 n

/-- A concrete engine scenario: text node `t` succeeds in wave 0; in
wave 1 the crop node `c` fails while its sibling `s` succeeds; node `z`
sits in wave 2 and is never dispatched. -/

def engineDemoCtx : EngineCtx where
  exec := fun n _ =>
    if n = "t" then .ok "hello"
    else if n = "c" then .error "No image input connected"
    else .ok "sib"
  durOf := fun _ => 5
  nodeIds := ["t", "c", "s", "z"]
  edges := [⟨"t", "c"⟩]

theorem mem_firstDedupAux (seen l : List String) (x : String) :
    x ∈ firstDedupAux seen l ↔ x ∈ l ∧ x ∉ seen := by
  induction l generalizing seen with
  | nil => simp [firstDedupAux]
  | cons a rest ih =>
    by_cases ha : a ∈ seen
    · rw [firstDedupAux, if_pos ha, ih]
      constructor
      · rintro ⟨hx, hs⟩; exact ⟨List.mem_cons_of_mem _ hx, hs⟩
      · rintro ⟨hx, hs⟩
        rcases List.mem_cons.mp hx with h | h
        · subst h; exact absurd ha hs
        · exact ⟨h, hs⟩
    · rw [firstDedupAux, if_neg ha]
      constructor
      · intro hx
        rcases List.mem_cons.mp hx with h | h
        · subst h; exact ⟨List.mem_cons_self _ _, ha⟩
        · rcases (ih (a :: seen)).mp h with ⟨h1, h2⟩
          refine ⟨List.mem_cons_of_mem _ h1, ?_⟩
          intro hmem
          exact h2 (List.mem_cons_of_mem _ hmem)
      · rintro ⟨hx, hs⟩
        by_cases hxa : x = a
        · subst hxa; exact List.mem_cons_self _ _
        · rcases List.mem_cons.mp hx with h | h
          · exact absurd h hxa
          · refine List.mem_cons_of_mem _ ((ih (a :: seen)).mpr ⟨h, ?_⟩)
            intro hmem
            rcases List.mem_cons.mp hmem with h2 | h2
            · exact hxa h2
            · exact hs h2

theorem mem_firstDedup (l : List String) (x : String) :
    x ∈ firstDedup l ↔ x ∈ l := by
  simp [firstDedup, mem_firstDedupAux]

theorem nodup_firstDedupAux (seen l : List String) :
    (firstDedupAux seen l).Nodup := by
  induction l generalizing seen with
  | nil => simp [firstDedupAux]
  | cons a rest ih =>
    by_cases ha : a ∈ seen
    · simpa [firstDedupAux, if_pos ha] using ih seen
    · simp only [firstDedupAux, if_neg ha, List.nodup_cons]
      refine ⟨?_, ih (a :: seen)⟩
      intro hmem
      exact ((mem_firstDedupAux _ _ _).mp hmem).2 (List.mem_cons_self a seen)

theorem nodup_firstDedup (l : List String) : (firstDedup l).Nodup :=
  nodup_firstDedupAux [] l

theorem mem_adjList (edges : List DAGEdge) (u v : String) :
    v ∈ adjList edges u ↔ ∃ e ∈ edges, e.source = u ∧ e.target = v := by
  simp only [adjList, List.mem_map, List.mem_filter, decide_eq_true_eq]
  constructor
  · rintro ⟨e, ⟨he, hs⟩, ht⟩; exact ⟨e, he, hs, ht⟩
  · rintro ⟨e, he, hs, ht⟩; exact ⟨e, ⟨he, hs⟩, ht⟩

/-- A chain of edge steps strictly increases any topological numbering. -/

theorem chain_rank_lt {edges : List DAGEdge} {rank : String → Nat}
    (hrank : ∀ e ∈ edges, rank e.source < rank e.target) :
    ∀ (l : List String) (x y : String),
      List.Chain (fun u v => v ∈ adjList edges u) x (l ++ [y]) →
      rank x < rank y := by
  intro l
  induction l with
  | nil =>
    intro x y h
    rw [List.nil_append] at h
    rcases List.chain_cons.mp h with ⟨hstep, -⟩
    rcases (mem_adjList edges x y).mp hstep with ⟨e, he, hs, ht⟩
    have := hrank e he
    rw [hs, ht] at this
    exact this
  | cons a rest ih =>
    intro x y h
    rw [List.cons_append] at h
    rcases List.chain_cons.mp h with ⟨hstep, hrest⟩
    rcases (mem_adjList edges x a).mp hstep with ⟨e, he, hs, ht⟩
    have h1 : rank x < rank a := by
      have := hrank e he
      rw [hs, ht] at this
      exact this
    exact h1.trans (ih a y hrest)

/-- A graph admitting a topological numbering of its edges has no closed
walk.  Used to discharge acyclicity for concrete inputs. -/

theorem acyclic_of_rank {edges : List DAGEdge} (rank : String → Nat)
    (hrank : ∀ e ∈ edges, rank e.source < rank e.target) :
    ¬ HasCycleWalk edges := by
  intro h
  obtain ⟨x, l, hchain⟩ := h
  exact lt_irrefl (rank x) (chain_rank_lt hrank l x x hchain)

theorem chain_extend {r : String → String → Prop} :
    ∀ (l : List String) (a b c : String),
      List.Chain r a (l ++ [b]) → r b c → List.Chain r a (l ++ [b] ++ [c]) := by
  intro l
  induction l with
  | nil =>
    intro a b c h hbc
    rw [List.nil_append] at h ⊢
    rcases List.chain_cons.mp h with ⟨hab, -⟩
    exact List.chain_cons.mpr ⟨hab, List.chain_cons.mpr ⟨hbc, List.Chain.nil⟩⟩
  | cons d rest ih =>
    intro a b c h hbc
    rw [List.cons_append] at h
    rcases List.chain_cons.mp h with ⟨had, hrest⟩
    rw [List.append_assoc, List.cons_append, List.cons_append]
    refine List.chain_cons.mpr ⟨had, ?_⟩
    have := ih d b c hrest hbc
    rwa [List.append_assoc] at this

/-- From a stack that forms a path and a member `y` of it, produce a
chain from `y` up to the most recently pushed entry `z`. -/

theorem chainStack_walk {adj : String → List String} :
    ∀ (st : List String) (z y : String), ChainStack adj (z :: st) → y ∈ z :: st →
      y = z ∨ ∃ l, List.Chain (fun u v => v ∈ adj u) y (l ++ [z]) := by
  intro st
  induction st with
  | nil =>
    intro z y _ hy
    rcases List.mem_cons.mp hy with h | h
    · exact Or.inl h
    · exact absurd h (List.not_mem_nil y)
  | cons s rest ih =>
    intro z y hcs hy
    rcases hcs with ⟨hz, hrest⟩
    rcases List.mem_cons.mp hy with h | h
    · exact Or.inl h
    · rcases ih s y hrest h with h2 | ⟨l, hl⟩
      · subst h2
        exact Or.inr ⟨[], List.chain_cons.mpr ⟨hz, List.Chain.nil⟩⟩
      · exact Or.inr ⟨l ++ [s], chain_extend l y s z hl hz⟩

/-- A back edge from the current node into the recursion stack closes a
walk. -/

theorem cycle_of_back_edge {adj : String → List String} {nodeId nb : String}
    {stack : List String} (hcs : ChainStack adj (nodeId :: stack))
    (hadj : nb ∈ adj nodeId) (hmem : nb ∈ nodeId :: stack) : AdjCycle adj := by
  rcases chainStack_walk stack nodeId nb hcs hmem with h | ⟨l, hl⟩
  · subst h
    exact ⟨nb, [], List.chain_cons.mpr ⟨hadj, List.Chain.nil⟩⟩
  · exact ⟨nb, l ++ [nodeId], chain_extend l nb nodeId nb hl hadj⟩

theorem dfsNeighbors_sound {adj : String → List String}
    {dfs : String → List String → List String → Bool × List String}
    (hdfs : ∀ nb vis st, ChainStack adj (nb :: st) → (dfs nb vis st).1 = true →
      AdjCycle adj)
    {nodeId : String} {stack : List String}
    (hcs : ChainStack adj (nodeId :: stack)) :
    ∀ (nbs : List String) (visited : List String),
      (∀ nb ∈ nbs, nb ∈ adj nodeId) →
      (dfsNeighbors dfs nbs (nodeId :: stack) visited).1 = true → AdjCycle adj := by
  intro nbs
  induction nbs with
  | nil => intro visited _ h; simp [dfsNeighbors] at h
  | cons nb rest ih =>
    intro visited hsub h
    rw [dfsNeighbors] at h
    by_cases hv : nb ∈ visited
    · rw [if_pos hv] at h
      by_cases hst : nb ∈ nodeId :: stack
      · exact cycle_of_back_edge hcs (hsub nb (List.mem_cons_self _ _)) hst
      · rw [if_neg hst] at h
        exact ih visited (fun x hx => hsub x (List.mem_cons_of_mem _ hx)) h
    · rw [if_neg hv] at h
      rcases hr : dfs nb visited (nodeId :: stack) with ⟨b, v'⟩
      rw [hr] at h
      cases b with
      | true =>
        refine hdfs nb visited (nodeId :: stack) ?_ (by rw [hr])
        exact ⟨hsub nb (List.mem_cons_self _ _), hcs⟩
      | false =>
        exact ih v' (fun x hx => hsub x (List.mem_cons_of_mem _ hx)) h

theorem dfsVisit_sound {adj : String → List String} :
    ∀ (fuel : Nat) (nodeId : String) (visited stack : List String),
      ChainStack adj (nodeId :: stack) →
      (dfsVisit adj fuel nodeId visited stack).1 = true → AdjCycle adj := by
  intro fuel
  induction fuel with
  | zero => intro nodeId visited stack _ h; simp [dfsVisit] at h
  | succ fuel ih =>
    intro nodeId visited stack hcs h
    rw [dfsVisit] at h
    exact dfsNeighbors_sound (fun nb vis st h1 h2 => ih nb vis st h1 h2) hcs
      (adj nodeId) (nodeId :: visited) (fun _ hx => hx) h

theorem dfsTopLoop_sound {adj : String → List String} {fuel : Nat} :
    ∀ (rest visited : List String),
      dfsTopLoop adj fuel rest visited = true → AdjCycle adj := by
  intro rest
  induction rest with
  | nil => intro visited h; simp [dfsTopLoop] at h
  | cons nodeId rest ih =>
    intro visited h
    rw [dfsTopLoop] at h
    by_cases hv : nodeId ∈ visited
    · rw [if_pos hv] at h
      exact ih visited h
    · rw [if_neg hv] at h
      rcases hr : dfsVisit adj fuel nodeId visited [] with ⟨b, v'⟩
      rw [hr] at h
      cases b with
      | true => exact dfsVisit_sound fuel nodeId visited [] trivial (by rw [hr])
      | false => exact ih v' h

theorem unvis_pos {ids visited : List String} {x : String}
    (hx : x ∈ ids) (hv : x ∉ visited) : 0 < unvis ids visited := by
  have hmem : x ∈ ids.filter (fun x => decide (x ∉ visited)) :=
    List.mem_filter.mpr ⟨hx, by simpa using hv⟩
  exact List.length_pos.mpr (List.ne_nil_of_mem hmem)

theorem unvis_le_length (ids visited : List String) :
    unvis ids visited ≤ ids.length :=
  List.length_filter_le _ _

theorem unvis_anti (ids : List String) {vis vis' : List String}
    (h : ∀ x ∈ vis, x ∈ vis') : unvis ids vis' ≤ unvis ids vis := by
  induction ids with
  | nil => simp [unvis]
  | cons a rest ih =>
    simp only [unvis, List.filter_cons] at *
    by_cases ha' : a ∈ vis'
    · rw [if_neg (by simpa using ha')]
      by_cases ha : a ∈ vis
      · rw [if_neg (by simpa using ha)]; exact ih
      · rw [if_pos (by simpa using ha)]
        exact ih.trans (Nat.le_succ _)
    · have ha : a ∉ vis := fun hmem => ha' (h a hmem)
      rw [if_pos (by simpa using ha'), if_pos (by simpa using ha)]
      simpa using ih

theorem unvis_cons_lt {ids : List String} {vis : List String} {x : String}
    (hnd : ids.Nodup) (hx : x ∈ ids) (hv : x ∉ vis) :
    unvis ids (x :: vis) < unvis ids vis := by
  induction ids with
  | nil => exact absurd hx (List.not_mem_nil x)
  | cons a rest ih =>
    rcases List.nodup_cons.mp hnd with ⟨hna, hndr⟩
    by_cases hax : a = x
    · subst hax
      have h1 : (decide (a ∉ a :: vis)) = false := by simp
      have h2 : (decide (a ∉ vis)) = true := by simpa using hv
      have heq : rest.filter (fun y => decide (y ∉ a :: vis)) =
          rest.filter (fun y => decide (y ∉ vis)) := by
        apply List.filter_congr
        intro y hy
        have hya : ¬ (y = a) := fun h => hna (h ▸ hy)
        simp [hya]
      simp only [unvis, List.filter_cons, h1, h2, if_false, if_true, heq,
        Bool.false_eq_true, List.length_cons]
      exact Nat.lt_succ_self _
    · have hxr : x ∈ rest := by
        rcases List.mem_cons.mp hx with h | h
        · exact absurd h.symm hax
        · exact h
      have hlt := ih hndr hxr
      simp only [unvis] at hlt
      by_cases ha : a ∈ vis
      · have h1 : (decide (a ∉ x :: vis)) = false := by simp [ha]
        have h2 : (decide (a ∉ vis)) = false := by simpa using ha
        simp only [unvis, List.filter_cons, h1, h2, if_false, Bool.false_eq_true]
        exact hlt
      · have h1 : (decide (a ∉ x :: vis)) = true := by simp [hax, ha]
        have h2 : (decide (a ∉ vis)) = true := by simpa using ha
        simp only [unvis, List.filter_cons, h1, h2, if_true, List.length_cons]
        exact Nat.succ_lt_succ hlt

theorem dfsNeighbors_mono
    {dfs : String → List String → List String → Bool × List String}
    (hmono : ∀ nb vis st, ∀ x ∈ vis, x ∈ (dfs nb vis st).2) :
    ∀ (nbs st vis : List String), ∀ x ∈ vis, x ∈ (dfsNeighbors dfs nbs st vis).2 := by
  intro nbs
  induction nbs with
  | nil => intro st vis x hx; simpa [dfsNeighbors] using hx
  | cons nb rest ih =>
    intro st vis x hx
    rw [dfsNeighbors]
    by_cases hv : nb ∈ vis
    · rw [if_pos hv]
      by_cases hst : nb ∈ st
      · rw [if_pos hst]; exact hx
      · rw [if_neg hst]; exact ih st vis x hx
    · rw [if_neg hv]
      rcases hr : dfs nb vis st with ⟨b, v'⟩
      have hxv : x ∈ v' := by
        have := hmono nb vis st x hx
        rwa [hr] at this
      cases b with
      | true => exact hxv
      | false => exact ih st v' x hxv

theorem dfsVisit_mono {adj : String → List String} :
    ∀ (fuel : Nat) (nodeId : String) (vis stack : List String),
      ∀ x ∈ vis, x ∈ (dfsVisit adj fuel nodeId vis stack).2 := by
  intro fuel
  induction fuel with
  | zero => intro nodeId vis stack x hx; simpa [dfsVisit] using hx
  | succ fuel ih =>
    intro nodeId vis stack x hx
    rw [dfsVisit]
    exact dfsNeighbors_mono (fun nb v st y hy => ih nb v st y hy)
      (adj nodeId) (nodeId :: stack) (nodeId :: vis) x (List.mem_cons_of_mem _ hx)

theorem dfsNeighbors_closure {adj : String → List String} {ids : List String}
    {F : Nat} {dfs : String → List String → List String → Bool × List String}
    (hmono : ∀ nb vis st, ∀ x ∈ vis, x ∈ (dfs nb vis st).2)
    (hspec : ∀ nb vis st V, nb ∈ ids → nb ∉ vis → unvis ids vis ≤ F →
      dfs nb vis st = (false, V) → nb ∈ V ∧ ClosedUnderOff adj V vis) :
    ∀ (nbs vis st V : List String), (∀ nb ∈ nbs, nb ∈ ids) →
      unvis ids vis ≤ F → dfsNeighbors dfs nbs st vis = (false, V) →
      (∀ nb ∈ nbs, nb ∈ V) ∧ ClosedUnderOff adj V vis := by
  intro nbs
  induction nbs with
  | nil =>
    intro vis st V _ _ h
    rw [dfsNeighbors] at h
    cases h
    exact ⟨by intro nb h; exact absurd h (List.not_mem_nil nb),
      fun p hp hpv y hy => absurd hp hpv⟩
  | cons nb rest ih =>
    intro vis st V hsub hF h
    rw [dfsNeighbors] at h
    by_cases hv : nb ∈ vis
    · rw [if_pos hv] at h
      by_cases hst : nb ∈ st
      · rw [if_pos hst] at h; cases h
      · rw [if_neg hst] at h
        rcases ih vis st V (fun x hx => hsub x (List.mem_cons_of_mem _ hx)) hF h
          with ⟨hrest, hclosed⟩
        have hmem : nb ∈ V := by
          have := dfsNeighbors_mono hmono rest st vis nb hv
          rwa [h] at this
        refine ⟨?_, hclosed⟩
        intro x hx
        rcases List.mem_cons.mp hx with h1 | h1
        · exact h1 ▸ hmem
        · exact hrest x h1
    · rw [if_neg hv] at h
      rcases hr : dfs nb vis st with ⟨b, v1⟩
      rw [hr] at h
      cases b with
      | true =>
        have h' : ((true, v1) : Bool × List String) = (false, V) := h
        simp at h'
      | false =>
        have h' : dfsNeighbors dfs rest st v1 = (false, V) := h
        rcases hspec nb vis st v1 (hsub nb (List.mem_cons_self _ _)) hv hF hr
          with ⟨hnb, hclosed1⟩
        have hvis1 : ∀ x ∈ vis, x ∈ v1 := by
          intro x hx
          have := hmono nb vis st x hx
          rwa [hr] at this
        have hF1 : unvis ids v1 ≤ F := (unvis_anti ids hvis1).trans hF
        rcases ih v1 st V (fun x hx => hsub x (List.mem_cons_of_mem _ hx)) hF1 h'
          with ⟨hrest, hclosed2⟩
        have hv1V : ∀ x ∈ v1, x ∈ V := by
          intro x hx
          have := dfsNeighbors_mono hmono rest st v1 x hx
          rwa [h'] at this
        refine ⟨?_, ?_⟩
        · intro x hx
          rcases List.mem_cons.mp hx with h1 | h1
          · exact h1 ▸ hv1V nb hnb
          · exact hrest x h1
        · intro p hp hpv y hy
          by_cases hp1 : p ∈ v1
          · exact hv1V y (hclosed1 p hp1 hpv y hy)
          · exact hclosed2 p hp hp1 y hy

theorem dfsVisit_closure {adj : String → List String} {ids : List String}
    (hnd : ids.Nodup) (hadj : ∀ u, ∀ v ∈ adj u, v ∈ ids) :
    ∀ (fuel : Nat) (nodeId : String) (vis stack V : List String),
      nodeId ∈ ids → nodeId ∉ vis → unvis ids vis ≤ fuel →
      dfsVisit adj fuel nodeId vis stack = (false, V) →
      nodeId ∈ V ∧ ClosedUnderOff adj V vis := by
  intro fuel
  induction fuel with
  | zero =>
    intro nodeId vis stack V hid hv hF _
    exact absurd hF (Nat.not_le.mpr (unvis_pos hid hv))
  | succ fuel ih =>
    intro nodeId vis stack V hid hv hF h
    rw [dfsVisit] at h
    have hF1 : unvis ids (nodeId :: vis) ≤ fuel :=
      Nat.lt_succ_iff.mp (Nat.lt_of_lt_of_le (unvis_cons_lt hnd hid hv) hF)
    have hm : ∀ nb v st, ∀ x ∈ v, x ∈ (dfsVisit adj fuel nb v st).2 :=
      fun nb v st x hx => @dfsVisit_mono adj fuel nb v st x hx
    rcases dfsNeighbors_closure hm
      (fun nb v st V' h1 h2 h3 h4 => ih nb v st V' h1 h2 h3 h4)
      (adj nodeId) (nodeId :: vis) (nodeId :: stack) V
      (fun nb hnb => hadj nodeId nb hnb) hF1 h with ⟨hnbs, hclosed⟩
    have hvisV : ∀ x ∈ nodeId :: vis, x ∈ V := by
      intro x hx
      have := dfsNeighbors_mono hm
        (adj nodeId) (nodeId :: stack) (nodeId :: vis) x hx
      rwa [h] at this
    refine ⟨hvisV nodeId (List.mem_cons_self _ _), ?_⟩
    intro p hp hpv y hy
    by_cases hpn : p = nodeId
    · exact hnbs y (hpn ▸ hy)
    · refine hclosed p hp ?_ y hy
      intro hmem
      rcases List.mem_cons.mp hmem with h1 | h1
      · exact hpn h1
      · exact hpv h1

theorem dfsNeighbors_stackSafe {adj : String → List String} {ids : List String}
    {F : Nat} {dfs : String → List String → List String → Bool × List String}
    (hmono : ∀ nb vis st, ∀ x ∈ vis, x ∈ (dfs nb vis st).2)
    (hspec : ∀ nb vis st V, nb ∈ ids → nb ∉ vis → st ⊆ vis → unvis ids vis ≤ F →
      dfs nb vis st = (false, V) →
      ∀ p ∈ V, p ∉ vis → ∀ y ∈ adj p, y ∉ nb :: st) :
    ∀ (nbs vis st V : List String), (∀ nb ∈ nbs, nb ∈ ids) → st ⊆ vis →
      unvis ids vis ≤ F → dfsNeighbors dfs nbs st vis = (false, V) →
      (∀ nb ∈ nbs, nb ∉ st) ∧ (∀ p ∈ V, p ∉ vis → ∀ y ∈ adj p, y ∉ st) := by
  intro nbs
  induction nbs with
  | nil =>
    intro vis st V _ _ _ h
    rw [dfsNeighbors] at h
    cases h
    exact ⟨fun nb h => absurd h (List.not_mem_nil nb),
      fun p hp hpv y hy => absurd hp hpv⟩
  | cons nb rest ih =>
    intro vis st V hsub hstv hF h
    rw [dfsNeighbors] at h
    by_cases hv : nb ∈ vis
    · rw [if_pos hv] at h
      by_cases hst : nb ∈ st
      · rw [if_pos hst] at h; cases h
      · rw [if_neg hst] at h
        rcases ih vis st V (fun x hx => hsub x (List.mem_cons_of_mem _ hx)) hstv hF h
          with ⟨hrest, hsafe⟩
        refine ⟨?_, hsafe⟩
        intro x hx
        rcases List.mem_cons.mp hx with h1 | h1
        · exact h1 ▸ hst
        · exact hrest x h1
    · rw [if_neg hv] at h
      have hnbst : nb ∉ st := fun hmem => hv (hstv hmem)
      rcases hr : dfs nb vis st with ⟨b, v1⟩
      rw [hr] at h
      cases b with
      | true =>
        have h' : ((true, v1) : Bool × List String) = (false, V) := h
        simp at h'
      | false =>
        have h' : dfsNeighbors dfs rest st v1 = (false, V) := h
        have hsafe1 := hspec nb vis st v1 (hsub nb (List.mem_cons_self _ _)) hv hstv hF hr
        have hvis1 : ∀ x ∈ vis, x ∈ v1 := by
          intro x hx
          have := hmono nb vis st x hx
          rwa [hr] at this
        have hstv1 : st ⊆ v1 := fun a hmem => hvis1 a (hstv hmem)
        have hF1 : unvis ids v1 ≤ F := (unvis_anti ids hvis1).trans hF
        rcases ih v1 st V (fun x hx => hsub x (List.mem_cons_of_mem _ hx)) hstv1 hF1 h'
          with ⟨hrest, hsafe2⟩
        refine ⟨?_, ?_⟩
        · intro x hx
          rcases List.mem_cons.mp hx with h1 | h1
          · exact h1 ▸ hnbst
          · exact hrest x h1
        · intro p hp hpv y hy
          by_cases hp1 : p ∈ v1
          · intro hmem
            exact hsafe1 p hp1 hpv y hy (List.mem_cons_of_mem _ hmem)
          · exact hsafe2 p hp hp1 y hy

theorem dfsVisit_stackSafe {adj : String → List String} {ids : List String}
    (hnd : ids.Nodup) (hadj : ∀ u, ∀ v ∈ adj u, v ∈ ids) :
    ∀ (fuel : Nat) (nodeId : String) (vis stack V : List String),
      nodeId ∈ ids → nodeId ∉ vis → stack ⊆ vis → unvis ids vis ≤ fuel →
      dfsVisit adj fuel nodeId vis stack = (false, V) →
      ∀ p ∈ V, p ∉ vis → ∀ y ∈ adj p, y ∉ nodeId :: stack := by
  intro fuel
  induction fuel with
  | zero =>
    intro nodeId vis stack V hid hv _ hF _
    exact absurd hF (Nat.not_le.mpr (unvis_pos hid hv))
  | succ fuel ih =>
    intro nodeId vis stack V hid hv hstv hF h
    rw [dfsVisit] at h
    have hF1 : unvis ids (nodeId :: vis) ≤ fuel :=
      Nat.lt_succ_iff.mp (Nat.lt_of_lt_of_le (unvis_cons_lt hnd hid hv) hF)
    have hm : ∀ nb v st, ∀ x ∈ v, x ∈ (dfsVisit adj fuel nb v st).2 :=
      fun nb v st x hx => @dfsVisit_mono adj fuel nb v st x hx
    have hstv1 : (nodeId :: stack) ⊆ (nodeId :: vis) := by
      intro x hx
      rcases List.mem_cons.mp hx with h1 | h1
      · exact h1 ▸ List.mem_cons_self _ _
      · exact List.mem_cons_of_mem _ (hstv h1)
    rcases dfsNeighbors_stackSafe hm
      (fun nb v st V' h1 h2 h3 h4 h5 => ih nb v st V' h1 h2 h3 h4 h5)
      (adj nodeId) (nodeId :: vis) (nodeId :: stack) V
      (fun nb hnb => hadj nodeId nb hnb) hstv1 hF1 h with ⟨hnbs, hsafe⟩
    intro p hp hpv y hy
    by_cases hpn : p = nodeId
    · exact hnbs y (hpn ▸ hy)
    · refine hsafe p hp ?_ y hy
      intro hmem
      rcases List.mem_cons.mp hmem with h1 | h1
      · exact hpn h1
      · exact hpv h1

/-! ### Closed-walk helpers -/

theorem chain_chase {adj : String → List String} {V vis : List String}
    (hclosed : ClosedUnderOff adj V vis) :
    ∀ (ys : List String) (a : String),
      List.Chain (fun u v => v ∈ adj u) a ys → a ∈ V → a ∉ vis →
      (∀ y ∈ ys, y ∉ vis) → ∀ y ∈ ys, y ∈ V := by
  intro ys
  induction ys with
  | nil => intro a _ _ _ _ y hy; exact absurd hy (List.not_mem_nil y)
  | cons b rest ih =>
    intro a hchain haV hav havoid y hy
    rcases List.chain_cons.mp hchain with ⟨hab, hrest⟩
    have hbV : b ∈ V := hclosed a haV hav b hab
    rcases List.mem_cons.mp hy with h1 | h1
    · exact h1 ▸ hbV
    · exact ih b hrest hbV (havoid b (List.mem_cons_self _ _))
        (fun z hz => havoid z (List.mem_cons_of_mem _ hz)) y h1

/-- If a closed walk avoids `vis` and touches the visited set `V` of a
completed DFS call, the whole walk is inside `V`. -/

theorem closedWalk_subset {adj : String → List String} {V vis : List String}
    (hclosed : ClosedUnderOff adj V vis) {x : String} {l : List String}
    (hchain : List.Chain (fun u v => v ∈ adj u) x (l ++ [x]))
    (havoid : ∀ w ∈ x :: l, w ∉ vis) {c : String} (hc : c ∈ x :: l) (hcV : c ∈ V) :
    ∀ w ∈ x :: l, w ∈ V := by
  have havoid' : ∀ y ∈ l ++ [x], y ∉ vis := by
    intro y hy
    rcases List.mem_append.mp hy with h1 | h1
    · exact havoid y (List.mem_cons_of_mem _ h1)
    · rcases List.mem_singleton.mp h1 with rfl
      exact havoid y (List.mem_cons_self _ _)
  have hfromx : x ∈ V → ∀ w ∈ x :: l, w ∈ V := by
    intro hxV w hw
    rcases List.mem_cons.mp hw with h1 | h1
    · exact h1 ▸ hxV
    · exact chain_chase hclosed (l ++ [x]) x hchain hxV
        (havoid x (List.mem_cons_self _ _)) havoid' w (List.mem_append_left _ h1)
  rcases List.mem_cons.mp hc with h1 | h1
  · exact hfromx (h1 ▸ hcV)
  · rcases List.append_of_mem h1 with ⟨l1, l2, rfl⟩
    have hsplit := List.chain_split.mp
      (show List.Chain (fun u v => v ∈ adj u) x (l1 ++ c :: (l2 ++ [x])) by
        simpa using hchain)
    have hchainc : List.Chain (fun u v => v ∈ adj u) c (l2 ++ [x]) := hsplit.2
    have hcnv : c ∉ vis := havoid c (List.mem_cons_of_mem _ h1)
    have havoid2 : ∀ y ∈ l2 ++ [x], y ∉ vis := by
      intro y hy
      rcases List.mem_append.mp hy with h2 | h2
      · exact havoid y (List.mem_cons_of_mem _ (by simp [h2]))
      · rcases List.mem_singleton.mp h2 with rfl
        exact havoid y (List.mem_cons_self _ _)
    have hxV : x ∈ V :=
      chain_chase hclosed (l2 ++ [x]) c hchainc hcV hcnv havoid2 x
        (List.mem_append_right _ (List.mem_singleton.mpr rfl))
    exact hfromx hxV

theorem chain_last_step {r : String → String → Prop} :
    ∀ (l : List String) (a b : String), List.Chain r a (l ++ [b]) →
      ∃ p ∈ a :: l, r p b := by
  intro l
  induction l with
  | nil =>
    intro a b h
    rw [List.nil_append] at h
    rcases List.chain_cons.mp h with ⟨hab, -⟩
    exact ⟨a, List.mem_cons_self _ _, hab⟩
  | cons d rest ih =>
    intro a b h
    rw [List.cons_append] at h
    rcases List.chain_cons.mp h with ⟨-, hrest⟩
    rcases ih d b hrest with ⟨p, hp, hpb⟩
    exact ⟨p, List.mem_cons_of_mem _ hp, hpb⟩

/-- Every node of a closed walk has a predecessor on the walk. -/

theorem closedWalk_pred {r : String → String → Prop} {x : String} {l : List String}
    (hchain : List.Chain r x (l ++ [x])) :
    ∀ y ∈ x :: l, ∃ p ∈ x :: l, r p y := by
  intro y hy
  rcases List.mem_cons.mp hy with h1 | h1
  · subst h1
    exact chain_last_step l y y hchain
  · rcases List.append_of_mem h1 with ⟨l1, l2, rfl⟩
    have hsplit := List.chain_split.mp
      (show List.Chain r x (l1 ++ y :: (l2 ++ [x])) by simpa using hchain)
    rcases chain_last_step l1 x y hsplit.1 with ⟨p, hp, hpy⟩
    refine ⟨p, ?_, hpy⟩
    rcases List.mem_cons.mp hp with h2 | h2
    · exact h2 ▸ List.mem_cons_self _ _
    · exact List.mem_cons_of_mem _ (by simp [h2])

/-- Every node of a closed walk has an outgoing step. -/

theorem closedWalk_succ {r : String → String → Prop} {x : String} {l : List String}
    (hchain : List.Chain r x (l ++ [x])) :
    ∀ y ∈ x :: l, ∃ z, r y z := by
  intro y hy
  rcases List.mem_cons.mp hy with h1 | h1
  · subst h1
    cases l with
    | nil =>
      rw [List.nil_append] at hchain
      rcases List.chain_cons.mp hchain with ⟨h, -⟩
      exact ⟨y, h⟩
    | cons d rest =>
      rw [List.cons_append] at hchain
      rcases List.chain_cons.mp hchain with ⟨h, -⟩
      exact ⟨d, h⟩
  · rcases List.append_of_mem h1 with ⟨l1, l2, rfl⟩
    have hsplit := List.chain_split.mp
      (show List.Chain r x (l1 ++ y :: (l2 ++ [x])) by simpa using hchain)
    have h2 := hsplit.2
    cases l2 with
    | nil =>
      rw [List.nil_append] at h2
      rcases List.chain_cons.mp h2 with ⟨h, -⟩
      exact ⟨x, h⟩
    | cons d rest =>
      rw [List.cons_append] at h2
      rcases List.chain_cons.mp h2 with ⟨h, -⟩
      exact ⟨d, h⟩

/-! ### The walk-avoidance lemma: a DFS call that returns `false`
cannot visit any node of a closed walk that was entirely unvisited when
the call started. -/

theorem dfsNeighbors_avoid {ids : List String}
    {F : Nat} {dfs : String → List String → List String → Bool × List String}
    {x : String} {l : List String}
    (hmono : ∀ nb vis st, ∀ z ∈ vis, z ∈ (dfs nb vis st).2)
    (hspec : ∀ nb vis st V, nb ∈ ids → nb ∉ vis → st ⊆ vis → unvis ids vis ≤ F →
      (∀ w ∈ x :: l, w ∉ vis) → dfs nb vis st = (false, V) → ∀ w ∈ x :: l, w ∉ V) :
    ∀ (nbs vis st V : List String), (∀ nb ∈ nbs, nb ∈ ids) → st ⊆ vis →
      unvis ids vis ≤ F → (∀ w ∈ x :: l, w ∉ vis) →
      dfsNeighbors dfs nbs st vis = (false, V) → ∀ w ∈ x :: l, w ∉ V := by
  intro nbs
  induction nbs with
  | nil =>
    intro vis st V _ _ _ havoid h
    rw [dfsNeighbors] at h
    cases h
    exact havoid
  | cons nb rest ih =>
    intro vis st V hsub hstv hF havoid h
    rw [dfsNeighbors] at h
    by_cases hv : nb ∈ vis
    · rw [if_pos hv] at h
      by_cases hst : nb ∈ st
      · rw [if_pos hst] at h; cases h
      · rw [if_neg hst] at h
        exact ih vis st V (fun z hz => hsub z (List.mem_cons_of_mem _ hz)) hstv hF havoid h
    · rw [if_neg hv] at h
      rcases hr : dfs nb vis st with ⟨b, v1⟩
      rw [hr] at h
      cases b with
      | true =>
        have h' : ((true, v1) : Bool × List String) = (false, V) := h
        simp at h'
      | false =>
        have h' : dfsNeighbors dfs rest st v1 = (false, V) := h
        have havoid1 : ∀ w ∈ x :: l, w ∉ v1 :=
          hspec nb vis st v1 (hsub nb (List.mem_cons_self _ _)) hv hstv hF havoid hr
        have hvis1 : ∀ z ∈ vis, z ∈ v1 := by
          intro z hz
          have := hmono nb vis st z hz
          rwa [hr] at this
        have hstv1 : st ⊆ v1 := fun a hmem => hvis1 a (hstv hmem)
        have hF1 : unvis ids v1 ≤ F := (unvis_anti ids hvis1).trans hF
        exact ih v1 st V (fun z hz => hsub z (List.mem_cons_of_mem _ hz)) hstv1 hF1 havoid1 h'

theorem dfsVisit_avoid {adj : String → List String} {ids : List String}
    (hnd : ids.Nodup) (hadj : ∀ u, ∀ v ∈ adj u, v ∈ ids)
    {x : String} {l : List String}
    (hchain : List.Chain (fun u v => v ∈ adj u) x (l ++ [x])) :
    ∀ (fuel : Nat) (nodeId : String) (vis stack V : List String),
      nodeId ∈ ids → nodeId ∉ vis → stack ⊆ vis → unvis ids vis ≤ fuel →
      (∀ w ∈ x :: l, w ∉ vis) →
      dfsVisit adj fuel nodeId vis stack = (false, V) → ∀ w ∈ x :: l, w ∉ V := by
  intro fuel
  induction fuel with
  | zero =>
    intro nodeId vis stack V hid hv _ hF _ _
    exact absurd hF (Nat.not_le.mpr (unvis_pos hid hv))
  | succ fuel ih =>
    intro nodeId vis stack V hid hv hstv hF havoid h
    by_cases hnw : nodeId ∈ x :: l
    · exfalso
      rcases dfsVisit_closure hnd hadj (fuel + 1) nodeId vis stack V hid hv hF h
        with ⟨hnodeV, hclosed⟩
      have hallV : ∀ w ∈ x :: l, w ∈ V :=
        closedWalk_subset hclosed hchain havoid hnw hnodeV
      rcases closedWalk_pred hchain nodeId hnw with ⟨p, hpw, hpadj⟩
      have hsafe := dfsVisit_stackSafe hnd hadj (fuel + 1) nodeId vis stack V
        hid hv hstv hF h p (hallV p hpw) (havoid p hpw) nodeId hpadj
      exact hsafe (List.mem_cons_self _ _)
    · rw [dfsVisit] at h
      have hF1 : unvis ids (nodeId :: vis) ≤ fuel :=
        Nat.lt_succ_iff.mp (Nat.lt_of_lt_of_le (unvis_cons_lt hnd hid hv) hF)
      have hm : ∀ nb v st, ∀ z ∈ v, z ∈ (dfsVisit adj fuel nb v st).2 :=
        fun nb v st z hz => @dfsVisit_mono adj fuel nb v st z hz
      have hstv1 : (nodeId :: stack) ⊆ (nodeId :: vis) := by
        intro z hz
        rcases List.mem_cons.mp hz with h1 | h1
        · exact h1 ▸ List.mem_cons_self _ _
        · exact List.mem_cons_of_mem _ (hstv h1)
      have havoid1 : ∀ w ∈ x :: l, w ∉ nodeId :: vis := by
        intro w hw hmem
        rcases List.mem_cons.mp hmem with h1 | h1
        · exact hnw (h1 ▸ hw)
        · exact havoid w hw h1
      exact dfsNeighbors_avoid hm
        (fun nb v st V' h1 h2 h3 h4 h5 h6 => ih nb v st V' h1 h2 h3 h4 h5 h6)
        (adj nodeId) (nodeId :: vis) (nodeId :: stack) V
        (fun nb hnb => hadj nodeId nb hnb) hstv1 hF1 havoid1 h

/-- Completeness of the top-level DFS loop: given a closed walk whose
nodes are among the remaining ids and still unvisited, the loop reports
a cycle. -/

theorem dfsTopLoop_complete {adj : String → List String} {ids : List String}
    (hnd : ids.Nodup) (hadj : ∀ u, ∀ v ∈ adj u, v ∈ ids)
    {x : String} {l : List String}
    (hchain : List.Chain (fun u v => v ∈ adj u) x (l ++ [x])) :
    ∀ (rest vis : List String), (∀ n ∈ rest, n ∈ ids) →
      (∀ w ∈ x :: l, w ∉ vis) → (∃ w ∈ x :: l, w ∈ rest) →
      dfsTopLoop adj ids.length rest vis = true := by
  intro rest
  induction rest with
  | nil =>
    intro vis _ _ hex
    rcases hex with ⟨w, _, hw⟩
    exact absurd hw (List.not_mem_nil w)
  | cons nodeId rest ih =>
    intro vis hsub havoid hex
    rw [dfsTopLoop]
    by_cases hv : nodeId ∈ vis
    · rw [if_pos hv]
      refine ih vis (fun n hn => hsub n (List.mem_cons_of_mem _ hn)) havoid ?_
      rcases hex with ⟨w, hw, hwr⟩
      rcases List.mem_cons.mp hwr with h1 | h1
      · exact absurd hv (h1 ▸ havoid w hw)
      · exact ⟨w, hw, h1⟩
    · rw [if_neg hv]
      rcases hr : dfsVisit adj ids.length nodeId vis [] with ⟨b, v'⟩
      cases b with
      | true => rfl
      | false =>
        have hF : unvis ids vis ≤ ids.length := unvis_le_length ids vis
        have hid : nodeId ∈ ids := hsub nodeId (List.mem_cons_self _ _)
        have havoid' : ∀ w ∈ x :: l, w ∉ v' :=
          dfsVisit_avoid hnd hadj hchain ids.length nodeId vis [] v' hid hv
            (by intro a ha; exact absurd ha (List.not_mem_nil a)) hF havoid hr
        have hnodeV : nodeId ∈ v' :=
          (dfsVisit_closure hnd hadj ids.length nodeId vis [] v' hid hv hF hr).1
        refine ih v' (fun n hn => hsub n (List.mem_cons_of_mem _ hn)) havoid' ?_
        rcases hex with ⟨w, hw, hwr⟩
        rcases List.mem_cons.mp hwr with h1 | h1
        · exact absurd (h1 ▸ hnodeV) (havoid' w hw)
        · exact ⟨w, hw, h1⟩

/-! ### `validateDAG` assembled correctness -/

theorem checkEdges_eq_none {ids : List String} :
    ∀ edges : List DAGEdge, checkEdges ids edges = none ↔
      ∀ e ∈ edges, e.source ∈ ids ∧ e.target ∈ ids := by
  intro edges
  induction edges with
  | nil => simp [checkEdges]
  | cons e rest ih =>
    by_cases he : e.source ∈ ids ∧ e.target ∈ ids
    · rw [checkEdges, if_pos he, ih]
      constructor
      · intro h e' he'
        rcases List.mem_cons.mp he' with h1 | h1
        · exact h1 ▸ he
        · exact h e' h1
      · intro h e' he'
        exact h e' (List.mem_cons_of_mem _ he')
    · rw [checkEdges, if_neg he]
      constructor
      · intro h; cases h
      · intro h
        exact absurd (h e (List.mem_cons_self _ _)) he

theorem checkEdges_cases {ids : List String} (edges : List DAGEdge) :
    checkEdges ids edges = none ∨
      checkEdges ids edges = some "Edge references non-existent node" := by
  induction edges with
  | nil => exact Or.inl rfl
  | cons e rest ih =>
    by_cases he : e.source ∈ ids ∧ e.target ∈ ids
    · rw [checkEdges, if_pos he]; exact ih
    · rw [checkEdges, if_neg he]; exact Or.inr rfl

theorem adjList_sub {edges : List DAGEdge} {ids : List String}
    (hok : ∀ e ∈ edges, e.source ∈ ids ∧ e.target ∈ ids) :
    ∀ u, ∀ v ∈ adjList edges u, v ∈ ids := by
  intro u v hv
  rcases (mem_adjList edges u v).mp hv with ⟨e, he, -, ht⟩
  exact ht ▸ (hok e he).2

theorem closedWalk_mem_ids {edges : List DAGEdge} {ids : List String}
    (hok : ∀ e ∈ edges, e.source ∈ ids ∧ e.target ∈ ids)
    {x : String} {l : List String}
    (hchain : List.Chain (fun u v => v ∈ adjList edges u) x (l ++ [x])) :
    ∀ w ∈ x :: l, w ∈ ids := by
  intro w hw
  rcases closedWalk_succ hchain w hw with ⟨z, hz⟩
  rcases (mem_adjList edges w z).mp hz with ⟨e, he, hs, -⟩
  exact hs ▸ (hok e he).1

/-- **C4.** For every (nodes, edges) input to the DAG validator: any edge
naming an absent node id produces the dangling-edge invalid result
regardless of cycles; when all edge endpoints exist, a graph with a
closed walk is rejected with the cycle reason, and a graph without one
is accepted as valid. -/

theorem validateDAG_correct (nodes : List DAGNode) (edges : List DAGEdge) :
    ((∃ e ∈ edges, e.source ∉ nodeIdsOf nodes ∨ e.target ∉ nodeIdsOf nodes) →
      validateDAG nodes edges = ⟨false, some "Edge references non-existent node"⟩) ∧
    ((∀ e ∈ edges, e.source ∈ nodeIdsOf nodes ∧ e.target ∈ nodeIdsOf nodes) →
      HasCycleWalk edges →
      validateDAG nodes edges = ⟨false, some "Workflow contains a cycle"⟩) ∧
    ((∀ e ∈ edges, e.source ∈ nodeIdsOf nodes ∧ e.target ∈ nodeIdsOf nodes) →
      ¬ HasCycleWalk edges → validateDAG nodes edges = ⟨true, none⟩) := by
  refine ⟨?_, ?_, ?_⟩
  · intro hbad
    have hsome : checkEdges (nodeIdsOf nodes) edges =
        some "Edge references non-existent node" := by
      rcases checkEdges_cases edges with h | h
      · rcases hbad with ⟨e, he, hor⟩
        rcases (checkEdges_eq_none edges).mp h e he with ⟨h1, h2⟩
        rcases hor with h3 | h3
        · exact absurd h1 h3
        · exact absurd h2 h3
      · exact h
    rw [validateDAG, hsome]
  · intro hok hcyc
    have hnone : checkEdges (nodeIdsOf nodes) edges = none :=
      (checkEdges_eq_none edges).mpr hok
    obtain ⟨x, l, hchain⟩ := hcyc
    have htrue : dfsTopLoop (adjList edges) (nodeIdsOf nodes).length
        (nodeIdsOf nodes) [] = true := by
      refine dfsTopLoop_complete (nodup_firstDedup _) (adjList_sub hok) hchain
        (nodeIdsOf nodes) [] (fun n hn => hn) ?_ ?_
      · intro w _ hw
        exact absurd hw (List.not_mem_nil w)
      · exact ⟨x, List.mem_cons_self _ _,
          closedWalk_mem_ids hok hchain x (List.mem_cons_self _ _)⟩
    rw [validateDAG, hnone]
    simp only [htrue, if_true]
  · intro hok hnocyc
    have hnone : checkEdges (nodeIdsOf nodes) edges = none :=
      (checkEdges_eq_none edges).mpr hok
    have hfalse : dfsTopLoop (adjList edges) (nodeIdsOf nodes).length
        (nodeIdsOf nodes) [] = false := by
      cases h : dfsTopLoop (adjList edges) (nodeIdsOf nodes).length
          (nodeIdsOf nodes) [] with
      | false => rfl
      | true => exact absurd (dfsTopLoop_sound (nodeIdsOf nodes) [] h) hnocyc
    rw [validateDAG, hnone]
    simp only [hfalse, Bool.false_eq_true, if_false]

/-- Witness for C4 at three concrete graphs: a dangling edge, a
two-node cycle, and a valid two-node chain. -/

theorem validateDAG_correct_witness :
    validateDAG [⟨"a"⟩] [⟨"a", "b"⟩] =
        ⟨false, some "Edge references non-existent node"⟩ ∧
    validateDAG [⟨"a"⟩, ⟨"b"⟩] [⟨"a", "b"⟩, ⟨"b", "a"⟩] =
        ⟨false, some "Workflow contains a cycle"⟩ ∧
    validateDAG [⟨"a"⟩, ⟨"b"⟩] [⟨"a", "b"⟩] = ⟨true, none⟩ := by
  refine ⟨(validateDAG_correct [⟨"a"⟩] [⟨"a", "b"⟩]).1
      ⟨⟨"a", "b"⟩, by decide, Or.inr (by decide)⟩,
    (validateDAG_correct [⟨"a"⟩, ⟨"b"⟩] [⟨"a", "b"⟩, ⟨"b", "a"⟩]).2.1 (by decide)
      ⟨"a", ["b"], ?_⟩,
    (validateDAG_correct [⟨"a"⟩, ⟨"b"⟩] [⟨"a", "b"⟩]).2.2 (by decide)
      (acyclic_of_rank (fun s => if s = "a" then 0 else 1) (by decide))⟩
  exact List.chain_cons.mpr ⟨by decide, List.chain_cons.mpr ⟨by decide, List.Chain.nil⟩⟩

theorem initInDeg_eq_remInDeg (ids : List String) (edges : List DAGEdge) (v : String) :
    initInDeg ids edges v = remInDeg ids edges ids v := by
  unfold initInDeg remInDeg
  congr 1
  apply List.filter_congr
  intro e _
  rcases Decidable.em (e.source ∈ ids) with h | h <;> simp [h]

theorem decNeighbors_eq (remaining : List String) :
    ∀ (l : List String) (inDeg : String → Nat) (v : String),
      decNeighbors remaining l inDeg v =
        if v ∈ remaining then inDeg v - l.count v else inDeg v := by
  intro l
  induction l with
  | nil =>
    intro inDeg v
    by_cases hv : v ∈ remaining <;> simp [decNeighbors, hv]
  | cons nb rest ih =>
    intro inDeg v
    by_cases hnb : nb ∈ remaining
    · rw [decNeighbors, if_pos hnb, ih]
      by_cases hv : v ∈ remaining
      · rw [if_pos hv, if_pos hv, Function.update_apply]
        by_cases hvnb : v = nb
        · subst hvnb
          rw [if_pos rfl, List.count_cons_self]
          omega
        · simp [hvnb, List.count_cons, fun h : nb = v => hvnb h.symm]
      · rw [if_neg hv, if_neg hv, Function.update_apply]
        have hvnb : ¬ (v = nb) := fun h => hv (h ▸ hnb)
        simp [hvnb]
    · rw [decNeighbors, if_neg hnb, ih]
      by_cases hv : v ∈ remaining
      · rw [if_pos hv, if_pos hv]
        have hvnb : ¬ (nb = v) := fun h => hnb (h ▸ hv)
        simp [List.count_cons, hvnb]
      · rw [if_neg hv, if_neg hv]

theorem length_filter_split (l : List DAGEdge) (p q : DAGEdge → Bool) :
    (l.filter p).length =
      (l.filter (fun a => p a && q a)).length +
      (l.filter (fun a => p a && !q a)).length := by
  induction l with
  | nil => simp
  | cons a rest ih =>
    by_cases hp : p a = true
    · by_cases hq : q a = true
      · simp [List.filter_cons, hp, hq, ih]
        omega
      · have hq' : q a = false := by simpa using hq
        simp [List.filter_cons, hp, hq', ih]
        omega
    · have hp' : p a = false := by simpa using hp
      simp [List.filter_cons, hp', ih]

theorem count_adjListP (ids : List String) (edges : List DAGEdge) (g v : String) :
    (adjListP ids edges g).count v =
      (edges.filter (fun e =>
        e.source ∈ ids ∧ e.target ∈ ids ∧ e.target = v ∧ e.source = g)).length := by
  unfold adjListP
  rw [List.count_eq_countP, List.countP_map, ← List.countP_eq_length_filter,
    List.countP_filter]
  apply List.countP_congr
  intro e _
  simp only [Function.comp]
  rcases Decidable.em (e.source ∈ ids) with h1 | h1 <;>
    rcases Decidable.em (e.target ∈ ids) with h2 | h2 <;>
    rcases Decidable.em (e.target = v) with h3 | h3 <;>
    rcases Decidable.em (e.source = g) with h4 | h4 <;>
    simp [h1, h2, h3, h4, beq_iff_eq]

/-- Removing `g` from `remaining` lowers the restricted in-degree of any
node by exactly the number of scheduler edges from `g` to it. -/

theorem remInDeg_erase (ids : List String) (edges : List DAGEdge)
    (R : List String) (g v : String) (hg : g ∈ R) :
    remInDeg ids edges R v =
      remInDeg ids edges (R.filter (fun x => x ≠ g)) v +
        (adjListP ids edges g).count v := by
  have h1 : List.filter (fun e =>
        decide (e.source ∈ ids ∧ e.target ∈ ids ∧ e.target = v ∧ e.source ∈ R) &&
          decide (e.source ≠ g)) edges =
      List.filter (fun e => decide (e.source ∈ ids ∧ e.target ∈ ids ∧
        e.target = v ∧ e.source ∈ List.filter (fun x => decide (x ≠ g)) R)) edges := by
    apply List.filter_congr
    intro e _
    rcases Decidable.em (e.source ∈ ids) with h1 | h1 <;>
      rcases Decidable.em (e.target ∈ ids) with h2 | h2 <;>
      rcases Decidable.em (e.target = v) with h3 | h3 <;>
      rcases Decidable.em (e.source = g) with h4 | h4 <;>
      rcases Decidable.em (e.source ∈ R) with h5 | h5 <;>
      simp [h1, h2, h3, h4, h5, List.mem_filter]
  have h2 : List.filter (fun e =>
        decide (e.source ∈ ids ∧ e.target ∈ ids ∧ e.target = v ∧ e.source ∈ R) &&
          !decide (e.source ≠ g)) edges =
      List.filter (fun e => decide (e.source ∈ ids ∧ e.target ∈ ids ∧
        e.target = v ∧ e.source = g)) edges := by
    apply List.filter_congr
    intro e _
    rcases Decidable.em (e.source ∈ ids) with h1 | h1 <;>
      rcases Decidable.em (e.target ∈ ids) with h2 | h2 <;>
      rcases Decidable.em (e.target = v) with h3 | h3 <;>
      rcases Decidable.em (e.source = g) with h4 | h4 <;>
      rcases Decidable.em (e.source ∈ R) with h5 | h5 <;>
      simp_all
  rw [count_adjListP]
  unfold remInDeg
  rw [length_filter_split edges
    (fun e => decide (e.source ∈ ids ∧ e.target ∈ ids ∧ e.target = v ∧ e.source ∈ R))
    (fun e => decide (e.source ≠ g)), h1, h2]

/-- Invariant preservation through one wave removal: the remaining set
loses exactly the group, and the tracked in-degrees again equal the
restricted in-degrees. -/

theorem removeGroup_spec (ids : List String) (edges : List DAGEdge) :
    ∀ (group R : List String) (d : String → Nat),
      group.Nodup → (∀ g ∈ group, g ∈ R) →
      (∀ v ∈ R, d v = remInDeg ids edges R v) →
      (removeGroup (adjListP ids edges) group (R, d)).1 =
          R.filter (fun x => x ∉ group) ∧
        (∀ v ∈ R.filter (fun x => x ∉ group),
          (removeGroup (adjListP ids edges) group (R, d)).2 v =
            remInDeg ids edges (R.filter (fun x => x ∉ group)) v) := by
  intro group
  induction group with
  | nil =>
    intro R d _ _ hinv
    have hR : R.filter (fun x => x ∉ ([] : List String)) = R := by
      apply List.filter_eq_self.mpr
      intro a _
      simp
    rw [removeGroup, hR]
    exact ⟨rfl, fun v hv => hinv v hv⟩
  | cons g rest ih =>
    intro R d hnd hsub hinv
    rcases List.nodup_cons.mp hnd with ⟨hgr, hndr⟩
    have hgR : g ∈ R := hsub g (List.mem_cons_self _ _)
    rw [removeGroup]
    set R' := R.filter (fun x => x ≠ g) with hR'
    set d' := decNeighbors R' (adjListP ids edges g) d with hd'
    have hsub' : ∀ x ∈ rest, x ∈ R' := by
      intro x hx
      refine List.mem_filter.mpr ⟨hsub x (List.mem_cons_of_mem _ hx), ?_⟩
      have : ¬ (x = g) := fun h => hgr (h ▸ hx)
      simpa using this
    have hinv' : ∀ v ∈ R', d' v = remInDeg ids edges R' v := by
      intro v hv
      have hvR : v ∈ R := (List.mem_filter.mp hv).1
      rw [hd', decNeighbors_eq, if_pos hv, hinv v hvR,
        remInDeg_erase ids edges R g v hgR, ← hR']
      omega
    have hcomp : R'.filter (fun x => x ∉ rest) =
        R.filter (fun x => x ∉ g :: rest) := by
      rw [hR', List.filter_filter]
      apply List.filter_congr
      intro x _
      rcases Decidable.em (x = g) with h1 | h1 <;>
        rcases Decidable.em (x ∈ rest) with h2 | h2 <;>
        simp [h1, h2]
    rcases ih R' d' hndr hsub' hinv' with ⟨h1, h2⟩
    rw [hcomp] at h1 h2
    exact ⟨h1, h2⟩

/-- In an acyclic graph every nonempty remaining set has a node with no
remaining predecessor (else following predecessors forever would repeat
a node, closing a walk). -/

theorem exists_remInDeg_zero (ids : List String) {edges : List DAGEdge}
    (hacyc : ¬ HasCycleWalk edges) :
    ∀ (R : List String), R ≠ [] → ∃ v ∈ R, remInDeg ids edges R v = 0 := by
  intro R hR
  by_contra hnone
  push_neg at hnone
  have hpred : ∀ v ∈ R, ∃ u ∈ R, v ∈ adjList edges u := by
    intro v hv
    have hpos : 0 < remInDeg ids edges R v :=
      Nat.pos_of_ne_zero (hnone v hv)
    rcases List.exists_mem_of_length_pos hpos with ⟨e, he⟩
    rcases List.mem_filter.mp he with ⟨hee, hcond⟩
    have hcond' : e.source ∈ ids ∧ e.target ∈ ids ∧ e.target = v ∧ e.source ∈ R := by
      simpa using hcond
    exact ⟨e.source, hcond'.2.2.2,
      (mem_adjList edges e.source v).mpr ⟨e, hee, rfl, hcond'.2.2.1⟩⟩
  classical
  choose pred hpredR hpredAdj using hpred
  rcases List.exists_mem_of_ne_nil R hR with ⟨r0, hr0⟩
  let g : Nat → { v : String // v ∈ R } :=
    fun n => Nat.rec ⟨r0, hr0⟩ (fun _ p => ⟨pred p.1 p.2, hpredR p.1 p.2⟩) n
  have hgstep : ∀ n : Nat, (g n).1 ∈ adjList edges ((g (n + 1)).1) :=
    fun n => hpredAdj (g n).1 (g n).2
  have hmaps : ∀ n ∈ Finset.range (R.length + 1), (g n).1 ∈ R.toFinset := by
    intro n _
    exact List.mem_toFinset.mpr (g n).2
  have hcard : R.toFinset.card < (Finset.range (R.length + 1)).card := by
    rw [Finset.card_range]
    exact Nat.lt_succ_of_le (R.toFinset_card_le)
  rcases Finset.exists_ne_map_eq_of_card_lt_of_maps_to hcard hmaps
    with ⟨i, hi, j, hj, hij, heq⟩
  -- build the chain from the later index down to the earlier one
  have hchain : ∀ (k m : Nat), ∃ l, List.Chain (fun u v => v ∈ adjList edges u)
      ((g (m + k + 1)).1) (l ++ [(g m).1]) := by
    intro k
    induction k with
    | zero =>
      intro m
      exact ⟨[], List.chain_cons.mpr ⟨hgstep m, List.Chain.nil⟩⟩
    | succ k ihk =>
      intro m
      rcases ihk m with ⟨l, hl⟩
      refine ⟨(g (m + k + 1)).1 :: l, ?_⟩
      rw [List.cons_append]
      exact List.chain_cons.mpr ⟨hgstep (m + k + 1), hl⟩
  rcases Nat.lt_or_ge i j with hlt | hge
  · obtain ⟨k, rfl⟩ : ∃ k, j = i + k + 1 := ⟨j - i - 1, by omega⟩
    rcases hchain k i with ⟨l, hl⟩
    rw [heq] at hl
    exact hacyc ⟨(g (i + k + 1)).1, l, hl⟩
  · have hlt : j < i := Nat.lt_of_le_of_ne hge (fun h => hij h.symm)
    obtain ⟨k, rfl⟩ : ∃ k, i = j + k + 1 := ⟨i - j - 1, by omega⟩
    rcases hchain k j with ⟨l, hl⟩
    rw [← heq] at hl
    exact hacyc ⟨(g (j + k + 1)).1, l, hl⟩

theorem length_filter_lt (l : List String) (p : String → Bool) (a : String)
    (ha : a ∈ l) (hpa : p a = false) : (l.filter p).length < l.length := by
  induction l with
  | nil => exact absurd ha (List.not_mem_nil a)
  | cons b rest ih =>
    rcases List.mem_cons.mp ha with h1 | h1
    · subst h1
      rw [List.filter_cons, hpa]
      simp only [Bool.false_eq_true, if_false, List.length_cons]
      exact Nat.lt_succ_of_le (List.length_filter_le p rest)
    · rw [List.filter_cons]
      by_cases hb : p b = true
      · simp only [hb, if_true, List.length_cons]
        exact Nat.succ_lt_succ (ih h1)
      · simp only [hb, if_false, List.length_cons]
        exact Nat.lt_succ_of_lt (ih h1)

theorem kahnLoop_succ_eq {adj : String → List String} {fuel : Nat}
    {R : List String} {d : String → Nat} (hR : R ≠ [])
    (hG : R.filter (fun n => decide (d n = 0)) ≠ []) :
    kahnLoop adj (fuel + 1) R d =
      (R.filter (fun n => decide (d n = 0))) ::
        kahnLoop adj fuel
          (removeGroup adj (R.filter (fun n => decide (d n = 0))) (R, d)).1
          (removeGroup adj (R.filter (fun n => decide (d n = 0))) (R, d)).2 := by
  rw [kahnLoop, if_neg hR, if_neg hG]

/-- The waves produced by the Kahn loop partition the remaining set:
their concatenation has no duplicates and contains exactly the
remaining nodes. -/

theorem kahnLoop_partition {ids : List String} {edges : List DAGEdge}
    (hacyc : ¬ HasCycleWalk edges) :
    ∀ (fuel : Nat) (R : List String) (d : String → Nat),
      R.Nodup → (∀ v ∈ R, d v = remInDeg ids edges R v) → R.length ≤ fuel →
      (kahnLoop (adjListP ids edges) fuel R d).flatten.Nodup ∧
      (∀ x, x ∈ (kahnLoop (adjListP ids edges) fuel R d).flatten ↔ x ∈ R) := by
  intro fuel
  induction fuel with
  | zero =>
    intro R d _ _ hlen
    have hR : R = [] := List.eq_nil_of_length_eq_zero (Nat.le_zero.mp hlen)
    subst hR
    exact ⟨List.nodup_nil, fun x => by simp [kahnLoop]⟩
  | succ fuel ih =>
    intro R d hnd hinv hlen
    by_cases hRnil : R = []
    · subst hRnil
      rw [kahnLoop, if_pos rfl]
      exact ⟨List.nodup_nil, fun x => by simp⟩
    · rcases exists_remInDeg_zero ids hacyc R hRnil with ⟨v, hvR, hv0⟩
      have hvG : v ∈ R.filter (fun n => decide (d n = 0)) :=
        List.mem_filter.mpr ⟨hvR, by simp [hinv v hvR, hv0]⟩
      have hGne : R.filter (fun n => decide (d n = 0)) ≠ [] :=
        List.ne_nil_of_mem hvG
      have hGnd : (R.filter (fun n => decide (d n = 0))).Nodup := hnd.filter _
      have hGsub : ∀ g ∈ R.filter (fun n => decide (d n = 0)), g ∈ R :=
        fun g hg => (List.mem_filter.mp hg).1
      rcases removeGroup_spec ids edges (R.filter (fun n => decide (d n = 0))) R d
        hGnd hGsub hinv with ⟨hst1, hst2⟩
      have hR2nd : (R.filter
          (fun x => x ∉ R.filter (fun n => decide (d n = 0)))).Nodup :=
        hnd.filter _
      have hR2len : (R.filter
          (fun x => x ∉ R.filter (fun n => decide (d n = 0)))).length ≤ fuel := by
        have hlt : (R.filter
            (fun x => x ∉ R.filter (fun n => decide (d n = 0)))).length < R.length :=
          length_filter_lt R _ v hvR (by simp [hvG])
        omega
      rw [kahnLoop_succ_eq hRnil hGne, hst1]
      rcases ih (R.filter (fun x => x ∉ R.filter (fun n => decide (d n = 0))))
        (removeGroup (adjListP ids edges) (R.filter (fun n => decide (d n = 0)))
          (R, d)).2 hR2nd hst2 hR2len with ⟨hjnd, hjmem⟩
      constructor
      · rw [List.flatten_cons]
        refine List.Nodup.append hGnd hjnd ?_
        intro a haG hajoin
        have ha2 := (hjmem a).mp hajoin
        have hnot : a ∉ R.filter (fun n => decide (d n = 0)) :=
          of_decide_eq_true (List.mem_filter.mp ha2).2
        exact hnot haG
      · intro x
        rw [List.flatten_cons, List.mem_append, hjmem]
        constructor
        · rintro (h | h)
          · exact hGsub x h
          · exact (List.mem_filter.mp h).1
        · intro hxR
          by_cases hxG : x ∈ R.filter (fun n => decide (d n = 0))
          · exact Or.inl hxG
          · exact Or.inr (List.mem_filter.mpr ⟨hxR, decide_eq_true hxG⟩)

/-- Edge ordering across waves: if an edge's endpoints both appear in
produced waves, the source's wave strictly precedes the target's. -/

theorem kahnLoop_order {ids : List String} {edges : List DAGEdge}
    (hacyc : ¬ HasCycleWalk edges) :
    ∀ (fuel : Nat) (R : List String) (d : String → Nat),
      R.Nodup → (∀ v ∈ R, d v = remInDeg ids edges R v) → R.length ≤ fuel →
      ∀ (e : DAGEdge), e ∈ edges → e.source ∈ ids → e.target ∈ ids →
        e.source ∈ R → e.target ∈ R →
      ∀ (i j : Nat) (hi : i < (kahnLoop (adjListP ids edges) fuel R d).length)
        (hj : j < (kahnLoop (adjListP ids edges) fuel R d).length),
        e.source ∈ (kahnLoop (adjListP ids edges) fuel R d).get ⟨i, hi⟩ →
        e.target ∈ (kahnLoop (adjListP ids edges) fuel R d).get ⟨j, hj⟩ →
        i < j := by
  intro fuel
  induction fuel with
  | zero =>
    intro R d _ _ _ e _ _ _ _ _ i j hi _ _ _
    rw [kahnLoop] at hi
    exact absurd hi (by simp)
  | succ fuel ih =>
    intro R d hnd hinv hlen e he hsi hti hsR htR i j hi hj hsg htg
    by_cases hRnil : R = []
    · subst hRnil
      rw [kahnLoop, if_pos rfl] at hi
      exact absurd hi (by simp)
    · rcases exists_remInDeg_zero ids hacyc R hRnil with ⟨v, hvR, hv0⟩
      have hvG : v ∈ R.filter (fun n => decide (d n = 0)) :=
        List.mem_filter.mpr ⟨hvR, by simp [hinv v hvR, hv0]⟩
      have hGne : R.filter (fun n => decide (d n = 0)) ≠ [] :=
        List.ne_nil_of_mem hvG
      have hGnd : (R.filter (fun n => decide (d n = 0))).Nodup := hnd.filter _
      have hGsub : ∀ g ∈ R.filter (fun n => decide (d n = 0)), g ∈ R :=
        fun g hg => (List.mem_filter.mp hg).1
      rcases removeGroup_spec ids edges (R.filter (fun n => decide (d n = 0))) R d
        hGnd hGsub hinv with ⟨hst1, hst2⟩
      have hR2nd : (R.filter
          (fun x => x ∉ R.filter (fun n => decide (d n = 0)))).Nodup :=
        hnd.filter _
      have hR2len : (R.filter
          (fun x => x ∉ R.filter (fun n => decide (d n = 0)))).length ≤ fuel := by
        have hlt : (R.filter
            (fun x => x ∉ R.filter (fun n => decide (d n = 0)))).length < R.length :=
          length_filter_lt R _ v hvR (by simp [hvG])
        omega
      have htGfalse : e.target ∉ R.filter (fun n => decide (d n = 0)) := by
        intro hmem
        have hdt : d e.target = 0 := by simpa using (List.mem_filter.mp hmem).2
        have hpos : 0 < remInDeg ids edges R e.target := by
          refine List.length_pos.mpr (List.ne_nil_of_mem
            (List.mem_filter.mpr ⟨he, ?_⟩))
          simp [hsi, hti, hsR]
        rw [hinv e.target htR] at hdt
        omega
      revert hi hj
      rw [kahnLoop_succ_eq hRnil hGne, hst1]
      intro hi hj hsg htg
      have hpart := kahnLoop_partition hacyc fuel
        (R.filter (fun x => x ∉ R.filter (fun n => decide (d n = 0))))
        (removeGroup (adjListP ids edges) (R.filter (fun n => decide (d n = 0)))
          (R, d)).2 hR2nd hst2 hR2len
      cases j with
      | zero => exact absurd htg htGfalse
      | succ j' =>
        cases i with
        | zero => exact Nat.succ_pos j'
        | succ i' =>
          have hi' : i' < (kahnLoop (adjListP ids edges) fuel
              (R.filter (fun x => x ∉ R.filter (fun n => decide (d n = 0))))
              (removeGroup (adjListP ids edges)
                (R.filter (fun n => decide (d n = 0))) (R, d)).2).length := by
            simpa using hi
          have hj' : j' < (kahnLoop (adjListP ids edges) fuel
              (R.filter (fun x => x ∉ R.filter (fun n => decide (d n = 0))))
              (removeGroup (adjListP ids edges)
                (R.filter (fun n => decide (d n = 0))) (R, d)).2).length := by
            simpa using hj
          have hsg' : e.source ∈ (kahnLoop (adjListP ids edges) fuel
              (R.filter (fun x => x ∉ R.filter (fun n => decide (d n = 0))))
              (removeGroup (adjListP ids edges)
                (R.filter (fun n => decide (d n = 0))) (R, d)).2).get ⟨i', hi'⟩ := hsg
          have htg' : e.target ∈ (kahnLoop (adjListP ids edges) fuel
              (R.filter (fun x => x ∉ R.filter (fun n => decide (d n = 0))))
              (removeGroup (adjListP ids edges)
                (R.filter (fun n => decide (d n = 0))) (R, d)).2).get ⟨j', hj'⟩ := htg
          have hsjoin : e.source ∈ (kahnLoop (adjListP ids edges) fuel
              (R.filter (fun x => x ∉ R.filter (fun n => decide (d n = 0))))
              (removeGroup (adjListP ids edges)
                (R.filter (fun n => decide (d n = 0))) (R, d)).2).flatten :=
            List.mem_flatten.mpr ⟨_, List.get_mem _ _ _, hsg'⟩
          have htjoin : e.target ∈ (kahnLoop (adjListP ids edges) fuel
              (R.filter (fun x => x ∉ R.filter (fun n => decide (d n = 0))))
              (removeGroup (adjListP ids edges)
                (R.filter (fun n => decide (d n = 0))) (R, d)).2).flatten :=
            List.mem_flatten.mpr ⟨_, List.get_mem _ _ _, htg'⟩
          have hsR2 := (hpart.2 e.source).mp hsjoin
          have htR2 := (hpart.2 e.target).mp htjoin
          exact Nat.succ_lt_succ (ih _ _ hR2nd hst2 hR2len e he hsi hti
            hsR2 htR2 i' j' hi' hj' hsg' htg')

/-- **C1.** For every acyclic (nodes, edges) input, `getParallelGroups`
returns an ordered list of waves whose union is exactly the node-id set
(no duplicates, no omissions), and for every edge (u→v) with both
endpoints in the node set, u's wave index is strictly less than v's. -/

theorem getParallelGroups_correct (nodes : List DAGNode) (edges : List DAGEdge)
    (hacyc : ¬ HasCycleWalk edges) :
    (getParallelGroups nodes edges).flatten.Nodup ∧
    (∀ x, x ∈ (getParallelGroups nodes edges).flatten ↔
      x ∈ nodes.map (fun n => n.id)) ∧
    (∀ e ∈ edges, e.source ∈ nodeIdsOf nodes → e.target ∈ nodeIdsOf nodes →
      ∀ (i j : Nat) (hi : i < (getParallelGroups nodes edges).length)
        (hj : j < (getParallelGroups nodes edges).length),
        e.source ∈ (getParallelGroups nodes edges).get ⟨i, hi⟩ →
        e.target ∈ (getParallelGroups nodes edges).get ⟨j, hj⟩ → i < j) := by
  have hGP : getParallelGroups nodes edges =
      kahnLoop (adjListP (nodeIdsOf nodes) edges) (nodeIdsOf nodes).length
        (nodeIdsOf nodes) (initInDeg (nodeIdsOf nodes) edges) := rfl
  have hnd : (nodeIdsOf nodes).Nodup := nodup_firstDedup _
  have hinv : ∀ v ∈ nodeIdsOf nodes,
      initInDeg (nodeIdsOf nodes) edges v =
        remInDeg (nodeIdsOf nodes) edges (nodeIdsOf nodes) v :=
    fun v _ => initInDeg_eq_remInDeg _ _ v
  have hpart := kahnLoop_partition hacyc (nodeIdsOf nodes).length (nodeIdsOf nodes)
    (initInDeg (nodeIdsOf nodes) edges) hnd hinv (Nat.le_refl _)
  refine ⟨?_, ?_, ?_⟩
  · rw [hGP]; exact hpart.1
  · intro x
    rw [hGP]
    exact (hpart.2 x).trans (mem_firstDedup _ x)
  · intro e he hsi hti i j hi hj hsg htg
    revert hi hj
    rw [hGP]
    intro hi hj hsg htg
    exact kahnLoop_order hacyc (nodeIdsOf nodes).length (nodeIdsOf nodes)
      (initInDeg (nodeIdsOf nodes) edges) hnd hinv (Nat.le_refl _)
      e he hsi hti hsi hti i j hi hj hsg htg

/-- Witness for C1 on the diamond graph a→b, a→c, b→d, c→d: the waves
are `[[a], [b, c], [d]]` and their union has no duplicates. -/

theorem getParallelGroups_correct_witness :
    getParallelGroups [⟨"a"⟩, ⟨"b"⟩, ⟨"c"⟩, ⟨"d"⟩]
        [⟨"a", "b"⟩, ⟨"a", "c"⟩, ⟨"b", "d"⟩, ⟨"c", "d"⟩] =
      [["a"], ["b", "c"], ["d"]] ∧
    (getParallelGroups [⟨"a"⟩, ⟨"b"⟩, ⟨"c"⟩, ⟨"d"⟩]
        [⟨"a", "b"⟩, ⟨"a", "c"⟩, ⟨"b", "d"⟩, ⟨"c", "d"⟩]).flatten.Nodup := by
  constructor
  · decide
  · exact (getParallelGroups_correct [⟨"a"⟩, ⟨"b"⟩, ⟨"c"⟩, ⟨"d"⟩]
      [⟨"a", "b"⟩, ⟨"a", "c"⟩, ⟨"b", "d"⟩, ⟨"c", "d"⟩]
      (acyclic_of_rank
        (fun s => if s = "a" then 0 else if s = "d" then 2 else 1)
        (by decide))).1

theorem jsRound_nonneg {q : ℚ} (hq : 0 ≤ q) : 0 ≤ jsRound q := by
  unfold jsRound
  positivity

theorem jsRound_natCast (n : ℕ) : jsRound (n : ℚ) = n := by
  unfold jsRound
  rw [add_comm, Int.floor_add_nat]
  norm_num

/-- **C5.** For every image of positive pixel dimensions and percentage
parameters in [0, 100], the crop rectangle never exceeds the image
bounds and never collapses to zero; x=0,width=100 spans the full width
(and analogously for the height), and on a 100-pixel-wide image
x=90%,width=50% yields left=90, cropWidth=10. -/

theorem cropRegion_correct (x y w h : ℚ) (W H : ℕ)
    (hW : 1 ≤ W) (hH : 1 ≤ H)
    (hx0 : 0 ≤ x) (hx1 : x ≤ 100) (hy0 : 0 ≤ y) (hy1 : y ≤ 100)
    (hw0 : 0 ≤ w) (hw1 : w ≤ 100) (hh0 : 0 ≤ h) (hh1 : h ≤ 100) :
    (0 ≤ (cropRegion x y w h W H).1 ∧
      (cropRegion x y w h W H).1 + (cropRegion x y w h W H).2.2.1 ≤ W ∧
      1 ≤ (cropRegion x y w h W H).2.2.1 ∧
      0 ≤ (cropRegion x y w h W H).2.1 ∧
      (cropRegion x y w h W H).2.1 + (cropRegion x y w h W H).2.2.2 ≤ H ∧
      1 ≤ (cropRegion x y w h W H).2.2.2) ∧
    (x = 0 → y = 0 → w = 100 → h = 100 →
      cropRegion x y w h W H = (0, 0, (W : ℤ), (H : ℤ))) ∧
    (W = 100 → x = 90 → w = 50 →
      (cropRegion x y w h W H).1 = 90 ∧ (cropRegion x y w h W H).2.2.1 = 10) := by
  have hWpos : (1 : ℤ) ≤ (W : ℤ) := by exact_mod_cast hW
  have hHpos : (1 : ℤ) ≤ (H : ℤ) := by exact_mod_cast hH
  have hmaxW : max ((W : ℤ) - 1) 0 = (W : ℤ) - 1 := max_eq_left (by omega)
  have hmaxH : max ((H : ℤ) - 1) 0 = (H : ℤ) - 1 := max_eq_left (by omega)
  have hleft0 : 0 ≤ jsRound (x / 100 * W) :=
    jsRound_nonneg (by positivity)
  have htop0 : 0 ≤ jsRound (y / 100 * H) :=
    jsRound_nonneg (by positivity)
  refine ⟨?_, ?_, ?_⟩
  · unfold cropRegion
    simp only [hmaxW, hmaxH]
    constructor
    · exact le_min hleft0 (by omega)
    refine ⟨?_, ?_, ?_, ?_, ?_⟩
    · have hle : min (jsRound (x / 100 * W)) ((W : ℤ) - 1) ≤ (W : ℤ) - 1 :=
        min_le_right _ _
      have h1 : (1 : ℤ) ≤ (W : ℤ) - min (jsRound (x / 100 * W)) ((W : ℤ) - 1) := by
        omega
      have h2 : max (min (jsRound (w / 100 * W))
          ((W : ℤ) - min (jsRound (x / 100 * W)) ((W : ℤ) - 1))) 1 ≤
          (W : ℤ) - min (jsRound (x / 100 * W)) ((W : ℤ) - 1) :=
        max_le (min_le_right _ _) h1
      omega
    · exact le_max_right _ _
    · exact le_min htop0 (by omega)
    · have hle : min (jsRound (y / 100 * H)) ((H : ℤ) - 1) ≤ (H : ℤ) - 1 :=
        min_le_right _ _
      have h1 : (1 : ℤ) ≤ (H : ℤ) - min (jsRound (y / 100 * H)) ((H : ℤ) - 1) := by
        omega
      have h2 : max (min (jsRound (h / 100 * H))
          ((H : ℤ) - min (jsRound (y / 100 * H)) ((H : ℤ) - 1))) 1 ≤
          (H : ℤ) - min (jsRound (y / 100 * H)) ((H : ℤ) - 1) :=
        max_le (min_le_right _ _) h1
      omega
    · exact le_max_right _ _
  · intro hxv hyv hwv hhv
    subst hxv; subst hyv; subst hwv; subst hhv
    unfold cropRegion
    have hz : ((0 : ℚ) / 100 * W) = 0 := by ring
    have hzH : ((0 : ℚ) / 100 * H) = 0 := by ring
    have hfull : ((100 : ℚ) / 100 * W) = (W : ℚ) := by ring
    have hfullH : ((100 : ℚ) / 100 * H) = (H : ℚ) := by ring
    have hr0 : jsRound ((0 : ℚ) / 100 * W) = 0 := by
      rw [hz]; simpa using jsRound_natCast 0
    have hr0H : jsRound ((0 : ℚ) / 100 * H) = 0 := by
      rw [hzH]; simpa using jsRound_natCast 0
    have hrW : jsRound ((100 : ℚ) / 100 * W) = W := by rw [hfull]; exact jsRound_natCast W
    have hrH : jsRound ((100 : ℚ) / 100 * H) = H := by rw [hfullH]; exact jsRound_natCast H
    simp only [hr0, hr0H, hrW, hrH, hmaxW, hmaxH]
    have hleft : min (0 : ℤ) ((W : ℤ) - 1) = 0 := min_eq_left (by omega)
    have htop : min (0 : ℤ) ((H : ℤ) - 1) = 0 := min_eq_left (by omega)
    rw [hleft, htop]
    have hcw : max (min ((W : ℤ)) ((W : ℤ) - 0)) 1 = (W : ℤ) := by
      rw [sub_zero, min_self]
      exact max_eq_left hWpos
    have hch : max (min ((H : ℤ)) ((H : ℤ) - 0)) 1 = (H : ℤ) := by
      rw [sub_zero, min_self]
      exact max_eq_left hHpos
    rw [hcw, hch]
  · intro hWv hxv hwv
    subst hWv; subst hxv; subst hwv
    unfold cropRegion
    have h90 : jsRound ((90 : ℚ) / 100 * (100 : ℕ)) = 90 := by
      norm_num [jsRound]
    have h50 : jsRound ((50 : ℚ) / 100 * (100 : ℕ)) = 50 := by
      norm_num [jsRound]
    simp only [h90, h50]
    norm_num

/-- Witness for C5 at x=90, y=0, w=50, h=100 on a 100×100 image. -/

theorem cropRegion_correct_witness :
    (cropRegion 90 0 50 100 100 100).1 = 90 ∧
    (cropRegion 90 0 50 100 100 100).2.2.1 = 10 :=
  (cropRegion_correct 90 0 50 100 100 100 (by norm_num) (by norm_num)
    (by norm_num) (by norm_num) (by norm_num) (by norm_num)
    (by norm_num) (by norm_num) (by norm_num) (by norm_num)).2.2
    rfl rfl rfl

/-- Evaluation helper: a parse with no sign and no exponent yields the
decimal value of its digit components. -/

theorem parseFloatQ_pos_eval (s : String) (ip fp : List Char)
    (htok : tokenizeFloat s.data = ⟨false, ip, fp, false, []⟩)
    (hne : ¬ (ip = [] ∧ fp = [])) :
    parseFloatQ s =
      some ((digitsVal ip : ℚ) + (digitsVal fp : ℚ) / 10 ^ fp.length) := by
  simp only [parseFloatQ, htok]
  rw [if_neg hne]
  simp

/-- **C2 (counterexample).** A requested absolute timestamp of 9.95s on
a 10.0s clip is *not* re-seeked to 9.9s: 9.95 does not exceed the
duration, so `executeExtractFrameNode`'s seek computation returns 9.95s
unchanged. -/

theorem computeSeekSeconds_clamp_counterexample :
    computeSeekSeconds "9.95" 10 = .ok (199 / 20) ∧
      (199 : ℚ) / 20 ≠ 10 - 1 / 10 := by
  have hp : parseFloatQ "9.95" = some (199 / 20) := by
    rw [parseFloatQ_pos_eval "9.95" ['9'] ['9', '5'] (by decide) (by decide)]
    have h1 : digitsVal ['9'] = 9 := by decide
    have h2 : digitsVal ['9', '5'] = 95 := by decide
    rw [h1, h2]
    norm_num
  constructor
  · unfold computeSeekSeconds
    have hend : strEndsWith "9.95" "%" = false := by decide
    rw [hend]
    simp only [Bool.false_eq_true, if_false]
    have hrm : removeFirstChar 's' "9.95" = "9.95" := by decide
    rw [hrm, hp]
    have hred : (match some ((199 : ℚ) / 20) with
        | none => (Except.error ("Invalid timestamp: " ++ "9.95") : Except String ℚ)
        | some seekSeconds =>
          if seekSeconds < 0 then .error ("Invalid timestamp: " ++ "9.95")
          else if seekSeconds > 10 then .ok (10 - 1 / 10)
          else .ok seekSeconds) =
        (if (199 : ℚ) / 20 < 0 then
          (Except.error ("Invalid timestamp: " ++ "9.95") : Except String ℚ)
        else if (199 : ℚ) / 20 > 10 then .ok (10 - 1 / 10)
        else .ok ((199 : ℚ) / 20)) := rfl
    rw [hred, if_neg (by norm_num), if_neg (by norm_num)]
  · norm_num

/-- **C2 (amended).** Percentage timestamps are accepted exactly when
the parsed percent lies in [0, 100] and seek to `percent/100 ·
duration`; absolute timestamps must parse to a value ≥ 0, are clamped
to `duration - 0.1` only when they strictly exceed the duration, and
otherwise seek unchanged. -/

theorem computeSeekSeconds_spec (ts : String) (duration p v : ℚ) :
    (strEndsWith ts "%" = true →
      parseFloatQ (removeFirstChar '%' ts) = some p →
      (0 ≤ p → p ≤ 100 →
        computeSeekSeconds ts duration = .ok (p / 100 * duration)) ∧
      (p < 0 ∨ 100 < p →
        computeSeekSeconds ts duration =
          .error ("Invalid percentage timestamp: " ++ ts))) ∧
    (strEndsWith ts "%" = false →
      parseFloatQ (removeFirstChar 's' ts) = some v →
      (v < 0 →
        computeSeekSeconds ts duration = .error ("Invalid timestamp: " ++ ts)) ∧
      (0 ≤ v → v ≤ duration → computeSeekSeconds ts duration = .ok v) ∧
      (0 ≤ v → duration < v →
        computeSeekSeconds ts duration = .ok (duration - 1 / 10))) := by
  constructor
  · intro hpct hparse
    unfold computeSeekSeconds
    rw [hpct, if_pos rfl, hparse]
    constructor
    · intro h0 h100
      show (if p < 0 ∨ p > 100 then
          (Except.error ("Invalid percentage timestamp: " ++ ts) : Except String ℚ)
        else .ok (p / 100 * duration)) = _
      rw [if_neg]
      push_neg
      exact ⟨h0, h100⟩
    · intro hbad
      show (if p < 0 ∨ p > 100 then
          (Except.error ("Invalid percentage timestamp: " ++ ts) : Except String ℚ)
        else .ok (p / 100 * duration)) = _
      rw [if_pos]
      rcases hbad with h | h
      · exact Or.inl h
      · exact Or.inr h
  · intro hpct hparse
    unfold computeSeekSeconds
    rw [hpct]
    simp only [Bool.false_eq_true, if_false]
    rw [hparse]
    have hred : (match some v with
        | none => (Except.error ("Invalid timestamp: " ++ ts) : Except String ℚ)
        | some seekSeconds =>
          if seekSeconds < 0 then .error ("Invalid timestamp: " ++ ts)
          else if seekSeconds > duration then .ok (duration - 1 / 10)
          else .ok seekSeconds) =
        (if v < 0 then (Except.error ("Invalid timestamp: " ++ ts) : Except String ℚ)
          else if v > duration then .ok (duration - 1 / 10) else .ok v) := rfl
    rw [hred]
    refine ⟨?_, ?_, ?_⟩
    · intro hneg
      rw [if_pos hneg]
    · intro h0 hle
      rw [if_neg (not_lt.mpr h0), if_neg (not_lt.mpr hle)]
    · intro h0 hgt
      rw [if_neg (not_lt.mpr h0), if_pos hgt]

/-- Witness for C2 on a 10.0s clip: "50%" seeks to 5.0s, "110%" is
rejected, and 10.5s (which exceeds the duration) re-seeks to 9.9s. -/

theorem computeSeekSeconds_spec_witness :
    computeSeekSeconds "50%" 10 = .ok 5 ∧
    computeSeekSeconds "110%" 10 =
      .error "Invalid percentage timestamp: 110%" ∧
    computeSeekSeconds "10.5" 10 = .ok (99 / 10) := by
  have h50 : parseFloatQ (removeFirstChar '%' "50%") = some 50 := by
    have hrm : removeFirstChar '%' "50%" = "50" := by decide
    rw [hrm, parseFloatQ_pos_eval "50" ['5', '0'] [] (by decide) (by decide)]
    have h1 : digitsVal ['5', '0'] = 50 := by decide
    have h2 : digitsVal ([] : List Char) = 0 := by decide
    rw [h1, h2]
    norm_num
  have h110 : parseFloatQ (removeFirstChar '%' "110%") = some 110 := by
    have hrm : removeFirstChar '%' "110%" = "110" := by decide
    rw [hrm, parseFloatQ_pos_eval "110" ['1', '1', '0'] [] (by decide) (by decide)]
    have h1 : digitsVal ['1', '1', '0'] = 110 := by decide
    have h2 : digitsVal ([] : List Char) = 0 := by decide
    rw [h1, h2]
    norm_num
  have h105 : parseFloatQ (removeFirstChar 's' "10.5") = some (21 / 2) := by
    have hrm : removeFirstChar 's' "10.5" = "10.5" := by decide
    rw [hrm, parseFloatQ_pos_eval "10.5" ['1', '0'] ['5'] (by decide) (by decide)]
    have h1 : digitsVal ['1', '0'] = 10 := by decide
    have h2 : digitsVal ['5'] = 5 := by decide
    rw [h1, h2]
    norm_num
  refine ⟨?_, ?_, ?_⟩
  · have h := ((computeSeekSeconds_spec "50%" 10 50 0).1 (by decide) h50).1
      (by norm_num) (by norm_num)
    rw [h]
    norm_num
  · exact ((computeSeekSeconds_spec "110%" 10 110 0).1 (by decide) h110).2
      (Or.inr (by norm_num))
  · have h := ((computeSeekSeconds_spec "10.5" 10 0 (21 / 2)).2 (by decide)
      h105).2.2 (by norm_num) (by norm_num)
    rw [h]
    norm_num

/-- **C8 (counterexample).** The text node does not fail on a missing
configured value: it succeeds with the empty string. -/

theorem executeTextNode_missing_counterexample :
    executeTextNode none = .ok "" := rfl

/-- **C8 (amended).** The image-source and video-source executors fail
with their missing-input errors when the configured value is absent or
empty, and return it unchanged otherwise; the text node never fails and
falls back to the empty string when its message is absent or empty. -/

theorem passthrough_spec (t i v : Option String) :
    executeTextNode t = .ok (t.getD "") ∧
    (i = none ∨ i = some "" → executeImageUploadNode i = .error "No image uploaded") ∧
    (∀ s, i = some s → s ≠ "" → executeImageUploadNode i = .ok s) ∧
    (v = none ∨ v = some "" → executeVideoUploadNode v = .error "No video uploaded") ∧
    (∀ s, v = some s → s ≠ "" → executeVideoUploadNode v = .ok s) := by
  refine ⟨?_, ?_, ?_, ?_, ?_⟩
  · cases t with
    | none => rfl
    | some s =>
      by_cases hs : s = ""
      · subst hs; rfl
      · simp [executeTextNode, hs, Option.getD]
  · rintro (rfl | rfl)
    · rfl
    · rfl
  · rintro s rfl hs
    simp [executeImageUploadNode, hs]
  · rintro (rfl | rfl)
    · rfl
    · rfl
  · rintro s rfl hs
    simp [executeVideoUploadNode, hs]

/-- Witness for C8: missing text message yields the empty string,
missing image url fails, a present video url passes through. -/

theorem passthrough_spec_witness :
    executeTextNode none = .ok "" ∧
    executeImageUploadNode none = .error "No image uploaded" ∧
    executeVideoUploadNode (some "v.mp4") = .ok "v.mp4" :=
  ⟨(passthrough_spec none none (some "v.mp4")).1,
    (passthrough_spec none none (some "v.mp4")).2.1 (Or.inl rfl),
    (passthrough_spec none none (some "v.mp4")).2.2.2.2 "v.mp4" rfl (by decide)⟩

/-- **C7.** Evidence for the code bug: on a diagnostic stream with no
parseable Duration token (and no `'Invalid data found'` marker) the
wrapper resolves with 0 instead of rejecting; a parseable token is
parsed as `HH:MM:SS.frac`, and `'Invalid data found'` rejects. -/

theorem getVideoDuration_resolves_zero :
    getVideoDuration "" = .res 0 ∧
    getVideoDuration "frame=  10 fps" = .res 0 ∧
    getVideoDuration "Invalid data found when processing input" =
      .rej "Invalid video file" ∧
    getVideoDuration "  Duration: 00:01:05.50, start: 0.000000" =
      .res (131 / 2) := by
  refine ⟨by decide, by decide, by decide, ?_⟩
  have hfind : findDuration "  Duration: 00:01:05.50, start: 0.000000".data =
      some (0, 1, 5, ['5', '0']) := by decide
  unfold getVideoDuration
  rw [hfind]
  have hfrac : digitsVal ['5', '0'] = 50 := by decide
  have hred : (match some ((0 : Nat), (1 : Nat), (5 : Nat), ['5', '0']) with
      | some (hh, mm, ss, frac) =>
        Settle.res ((hh : ℚ) * 3600 + (mm : ℚ) * 60 +
          ((ss : ℚ) + (digitsVal frac : ℚ) / 10 ^ frac.length))
      | none =>
        if containsSub "Invalid data found".data
            "  Duration: 00:01:05.50, start: 0.000000".data then
          Settle.rej "Invalid video file"
        else Settle.res 0) =
      Settle.res ((0 : ℚ) * 3600 + (1 : ℚ) * 60 +
        ((5 : ℚ) + (digitsVal ['5', '0'] : ℚ) / 10 ^ (2 : ℕ))) := rfl
  rw [hred, hfrac]
  norm_num

theorem streamChunks_spec (errMsg : String) (maxB : Nat) :
    ∀ (l : List Nat) (c w : Nat), c ≤ maxB →
      (maxB < c + l.sum →
        ∃ con wr, streamChunks errMsg maxB l c w = (.error errMsg, con, wr)) ∧
      (c + l.sum ≤ maxB →
        streamChunks errMsg maxB l c w = (.ok (), c + l.sum, w + l.sum)) := by
  intro l
  induction l with
  | nil =>
    intro c w hc
    constructor
    · intro hlt
      simp only [List.sum_nil, Nat.add_zero] at hlt
      omega
    · intro _
      simp [streamChunks]
  | cons c1 rest ih =>
    intro c w hc
    constructor
    · intro hlt
      rw [streamChunks]
      by_cases h1 : maxB < c + c1
      · rw [if_pos h1]
        exact ⟨c + c1, w, rfl⟩
      · rw [if_neg h1]
        refine (ih (c + c1) (w + c1) (by omega)).1 ?_
        simp only [List.sum_cons] at hlt
        omega
    · intro hle
      rw [streamChunks]
      simp only [List.sum_cons] at hle
      rw [if_neg (by omega)]
      have h := (ih (c + c1) (w + c1) (by omega)).2 (by omega)
      rw [h]
      simp [List.sum_cons, Nat.add_assoc]

theorem downloadVideoTask_reaches_body (resp : HttpResponse) (maxBytes : Nat)
    (hok : resp.ok = true)
    (hcl : ∀ l, resp.contentLength = some l → l ≤ maxBytes) :
    downloadVideoTask resp maxBytes =
      downloadVideoTask.downloadVideoTaskBody resp maxBytes := by
  cases hc : resp.contentLength with
  | none =>
    unfold downloadVideoTask
    rw [hok, hc]
    simp only [not_true, Bool.not_eq_true, if_false]
  | some len2 =>
    unfold downloadVideoTask
    rw [hok, hc]
    simp only [not_true, Bool.not_eq_true, if_false]
    rw [if_neg (by have := hcl len2 hc; omega)]

theorem downloadVideoTaskBody_ok_spec (resp : HttpResponse) (maxBytes : Nat)
    (hres : (downloadVideoTask.downloadVideoTaskBody resp maxBytes).result = .ok ()) :
    resp.chunks.sum ≤ maxBytes ∧
      (downloadVideoTask.downloadVideoTaskBody resp maxBytes).closed = true := by
  by_cases hbody : resp.hasBody = true
  · by_cases hle : resp.chunks.sum ≤ maxBytes
    · refine ⟨hle, ?_⟩
      unfold downloadVideoTask.downloadVideoTaskBody
      rw [hbody]
      simp only [not_true, if_false]
      have heq := (streamChunks_spec
        (s!"Download exceeded max size limit of {maxBytes} bytes.")
        maxBytes resp.chunks 0 0 (Nat.zero_le _)).2 (by omega)
      rw [heq]
    · exfalso
      unfold downloadVideoTask.downloadVideoTaskBody at hres
      rw [hbody] at hres
      simp only [not_true, if_false] at hres
      rcases (streamChunks_spec
        (s!"Download exceeded max size limit of {maxBytes} bytes.")
        maxBytes resp.chunks 0 0 (Nat.zero_le _)).1 (by omega) with ⟨con, wr, heq⟩
      rw [heq] at hres
      cases hres
  · exfalso
    unfold downloadVideoTask.downloadVideoTaskBody at hres
    have hbody' : resp.hasBody = false := by
      cases h : resp.hasBody
      · rfl
      · exact absurd h hbody
    rw [hbody'] at hres
    simp at hres

/-- **C3 (counterexample).** The execution-library downloader performs
no content-length pre-check: a response declaring 200MB against a
100MB cap is not rejected before the body — it streams the (small)
body and succeeds. -/

theorem downloadVideo_contentLength_counterexample :
    downloadVideoExec ⟨true, some 209715200, true, [10]⟩ 104857600 =
      ⟨.ok (), true, true, 10, 10⟩ := by decide

/-- **C3 (amended).** The trigger-task downloader rejects a declared
content-length above `maxBytes` before opening the destination or
consuming any body byte; the execution-library downloader has no such
pre-check.  Both stream with a running byte count: the moment the
count exceeds `maxBytes` the call fails without the write stream being
ended, and a call only succeeds (stream ended and flushed) when the
whole body fits in the cap — stated here for `downloadVideoExec`
(conjuncts 2–4) and, past the pre-check, for `downloadVideoTask`
(conjuncts 5–7). -/

theorem downloadVideo_cap_spec (resp : HttpResponse) (maxBytes len : Nat) :
    (resp.ok = true → resp.contentLength = some len → maxBytes < len →
      downloadVideoTask resp maxBytes =
        ⟨.error s!"Video size ({len} bytes) exceeds limit of {maxBytes} bytes.",
          false, false, 0, 0⟩) ∧
    (resp.ok = true → resp.hasBody = true → maxBytes < resp.chunks.sum →
      (downloadVideoExec resp maxBytes).result = .error "Video too large" ∧
      (downloadVideoExec resp maxBytes).closed = false) ∧
    (resp.ok = true → resp.hasBody = true → resp.chunks.sum ≤ maxBytes →
      downloadVideoExec resp maxBytes =
        ⟨.ok (), true, true, resp.chunks.sum, resp.chunks.sum⟩) ∧
    ((downloadVideoExec resp maxBytes).result = .ok () →
      resp.chunks.sum ≤ maxBytes ∧ (downloadVideoExec resp maxBytes).closed = true) ∧
    (resp.ok = true → resp.hasBody = true →
      (∀ l, resp.contentLength = some l → l ≤ maxBytes) →
      maxBytes < resp.chunks.sum →
      (downloadVideoTask resp maxBytes).result =
        .error s!"Download exceeded max size limit of {maxBytes} bytes." ∧
      (downloadVideoTask resp maxBytes).closed = false) ∧
    (resp.ok = true → resp.hasBody = true →
      (∀ l, resp.contentLength = some l → l ≤ maxBytes) →
      resp.chunks.sum ≤ maxBytes →
      downloadVideoTask resp maxBytes =
        ⟨.ok (), true, true, resp.chunks.sum, resp.chunks.sum⟩) ∧
    ((downloadVideoTask resp maxBytes).result = .ok () →
      resp.chunks.sum ≤ maxBytes ∧ (downloadVideoTask resp maxBytes).closed = true) := by
  refine ⟨?_, ?_, ?_, ?_, ?_, ?_, ?_⟩
  · intro hok hcl hlt
    unfold downloadVideoTask
    rw [hok, hcl]
    simp only [not_true, Bool.not_eq_true, if_false]
    rw [if_pos hlt]
  · intro hok hbody hlt
    unfold downloadVideoExec
    rw [hok, hbody]
    simp only [not_true, if_false]
    rcases (streamChunks_spec "Video too large" maxBytes resp.chunks 0 0
      (Nat.zero_le _)).1 (by omega) with ⟨con, wr, heq⟩
    rw [heq]
    exact ⟨rfl, rfl⟩
  · intro hok hbody hle
    unfold downloadVideoExec
    rw [hok, hbody]
    simp only [not_true, if_false]
    have heq := (streamChunks_spec "Video too large" maxBytes resp.chunks 0 0
      (Nat.zero_le _)).2 (by omega)
    rw [heq]
    simp
  · intro hres
    by_cases hok : resp.ok = true
    · by_cases hbody : resp.hasBody = true
      · by_cases hle : resp.chunks.sum ≤ maxBytes
        · constructor
          · exact hle
          · unfold downloadVideoExec
            rw [hok, hbody]
            simp only [not_true, if_false]
            have heq := (streamChunks_spec "Video too large" maxBytes resp.chunks 0 0
              (Nat.zero_le _)).2 (by omega)
            rw [heq]
        · exfalso
          unfold downloadVideoExec at hres
          rw [hok, hbody] at hres
          simp only [not_true, if_false] at hres
          rcases (streamChunks_spec "Video too large" maxBytes resp.chunks 0 0
            (Nat.zero_le _)).1 (by omega) with ⟨con, wr, heq⟩
          rw [heq] at hres
          cases hres
      · exfalso
        unfold downloadVideoExec at hres
        rw [hok] at hres
        have hbody' : resp.hasBody = false := by
          cases h : resp.hasBody
          · rfl
          · exact absurd h hbody
        rw [hbody'] at hres
        simp at hres
    · exfalso
      unfold downloadVideoExec at hres
      have hok' : resp.ok = false := by
        cases h : resp.ok
        · rfl
        · exact absurd h hok
      rw [hok'] at hres
      simp at hres
  · intro hok hbody hcl hlt
    rw [downloadVideoTask_reaches_body resp maxBytes hok hcl]
    unfold downloadVideoTask.downloadVideoTaskBody
    rw [hbody]
    simp only [not_true, if_false]
    rcases (streamChunks_spec
      (s!"Download exceeded max size limit of {maxBytes} bytes.")
      maxBytes resp.chunks 0 0 (Nat.zero_le _)).1 (by omega) with ⟨con, wr, heq⟩
    rw [heq]
    exact ⟨rfl, rfl⟩
  · intro hok hbody hcl hle
    rw [downloadVideoTask_reaches_body resp maxBytes hok hcl]
    unfold downloadVideoTask.downloadVideoTaskBody
    rw [hbody]
    simp only [not_true, if_false]
    have heq := (streamChunks_spec
      (s!"Download exceeded max size limit of {maxBytes} bytes.")
      maxBytes resp.chunks 0 0 (Nat.zero_le _)).2 (by omega)
    rw [heq]
    simp
  · intro hres
    by_cases hok : resp.ok = true
    · by_cases hcl : ∀ l, resp.contentLength = some l → l ≤ maxBytes
      · rw [downloadVideoTask_reaches_body resp maxBytes hok hcl] at hres ⊢
        exact downloadVideoTaskBody_ok_spec resp maxBytes hres
      · exfalso
        push_neg at hcl
        obtain ⟨len2, hc, hlen⟩ := hcl
        unfold downloadVideoTask at hres
        rw [hok, hc] at hres
        simp only [not_true, Bool.not_eq_true, if_false] at hres
        rw [if_pos hlen] at hres
        simp at hres
    · exfalso
      unfold downloadVideoTask at hres
      have hok' : resp.ok = false := by
        cases h : resp.ok
        · rfl
        · exact absurd h hok
      rw [hok'] at hres
      simp at hres

/-- Witness for C3: a 200MB declaration against a 100MB cap is
rejected by the task downloader with nothing opened or consumed; an
undeclared-length stream crossing the cap mid-transfer fails in the
execution-library downloader; a stream crossing the cap past a small
declared length fails mid-transfer in the task downloader; and a body
that fits succeeds there with the stream ended and flushed. -/

theorem downloadVideo_cap_spec_witness :
    downloadVideoTask ⟨true, some 209715200, true, [10]⟩ 104857600 =
      ⟨.error "Video size (209715200 bytes) exceeds limit of 104857600 bytes.",
        false, false, 0, 0⟩ ∧
    (downloadVideoExec ⟨true, none, true, [60 * 1024 * 1024, 60 * 1024 * 1024]⟩
        (100 * 1024 * 1024)).result = .error "Video too large" ∧
    (downloadVideoTask ⟨true, some 1000, true, [600, 600]⟩ 1024).result =
      .error "Download exceeded max size limit of 1024 bytes." ∧
    downloadVideoTask ⟨true, some 20, true, [10, 10]⟩ 1024 =
      ⟨.ok (), true, true, 20, 20⟩ := by
  refine ⟨?_, ?_, ?_, ?_⟩
  · have h := (downloadVideo_cap_spec ⟨true, some 209715200, true, [10]⟩
      104857600 209715200).1 rfl rfl (by norm_num)
    rw [h]
    decide
  · exact ((downloadVideo_cap_spec ⟨true, none, true,
      [60 * 1024 * 1024, 60 * 1024 * 1024]⟩ (100 * 1024 * 1024) 0).2.1 rfl rfl
      (by norm_num)).1
  · have h := ((downloadVideo_cap_spec ⟨true, some 1000, true, [600, 600]⟩
      1024 0).2.2.2.2.1 rfl rfl
      (by intro l hl; simp at hl; omega) (by norm_num)).1
    rw [h]
    decide
  · have h := (downloadVideo_cap_spec ⟨true, some 20, true, [10, 10]⟩
      1024 0).2.2.2.2.2.1 rfl rfl
      (by intro l hl; simp at hl; omega) (by norm_num)
    rw [h]
    decide

/-- **C9.** Evidence for the code bug: on the byte-cap failure path
both downloader implementations throw after opening the destination
write stream without ever ending it — the handle is opened but not
closed on that exit path, contradicting the spec's claim that it is
closed on every exit path. -/

theorem downloadVideo_handle_leak :
    downloadVideoExec ⟨true, none, true, [10]⟩ 5 =
      ⟨.error "Video too large", true, false, 10, 0⟩ ∧
    downloadVideoTask ⟨true, none, true, [10]⟩ 5 =
      ⟨.error "Download exceeded max size limit of 5 bytes.", true, false, 10, 0⟩ := by
  constructor
  · decide
  · decide

/-- **C10.** When the upstream video reference contains
`cloudinary.com` and its path matches the upload public-id pattern, the
executor returns the Cloudinary frame-transformation outcome
immediately: no download, no duration probe, no timestamp validation —
for any timestamp configuration, including out-of-range ones. -/

theorem extractFrame_cloudinary_shortcircuit (url : String) (tsCfg : Option String)
    (env : ExtractEnv) (pid : String) (hne : url ≠ "")
    (hcloud : containsSub "cloudinary.com".data url.data = true)
    (hpid : uploadPublicId url = some pid) :
    executeExtractFrame (some url) tsCfg env =
      ⟨.cloudinaryFrame pid (timestampOrDefault tsCfg), false, false⟩ := by
  have hred : executeExtractFrame (some url) tsCfg env =
      (if url = "" then ⟨.failed "No video input connected", false, false⟩
      else if containsSub "cloudinary.com".data url.data then
        match uploadPublicId url with
        | some p =>
          ⟨.cloudinaryFrame p (timestampOrDefault tsCfg), false, false⟩
        | none => extractLocal url (timestampOrDefault tsCfg) env
      else extractLocal url (timestampOrDefault tsCfg) env) := rfl
  rw [hred, if_neg hne, if_pos hcloud, hpid]

/-- Witness for C10: a Cloudinary upload URL with the out-of-range
timestamp "110%" still short-circuits to the frame URL outcome. -/

theorem extractFrame_cloudinary_shortcircuit_witness :
    executeExtractFrame
        (some "https://res.cloudinary.com/demo/video/upload/v1234/folder/clip.mp4")
        (some "110%") ⟨.ok (), .ok 10⟩ =
      ⟨.cloudinaryFrame "folder/clip" "110%", false, false⟩ := by
  have h := extractFrame_cloudinary_shortcircuit
    "https://res.cloudinary.com/demo/video/upload/v1234/folder/clip.mp4"
    (some "110%") ⟨.ok (), .ok 10⟩ "folder/clip"
    (by decide) (by decide) (by decide)
  rw [h]
  decide

theorem stepNode_preserves (ctx : EngineCtx) (m : String) (st : EngineState)
    {n : String} (hnm : n ≠ m) :
    (stepNode ctx m st).2.status n = st.status n ∧
    (stepNode ctx m st).2.error n = st.error n ∧
    (stepNode ctx m st).2.duration n = st.duration n ∧
    (stepNode ctx m st).2.outputs n = st.outputs n := by
  unfold stepNode
  by_cases hm : m ∈ ctx.nodeIds
  · rw [if_pos hm]
    cases ctx.exec m (upstreamOf ctx st.outputs m) with
    | ok out =>
      exact ⟨Function.update_noteq hnm _ _, rfl,
        Function.update_noteq hnm _ _, Function.update_noteq hnm _ _⟩
    | error msg =>
      exact ⟨Function.update_noteq hnm _ _, Function.update_noteq hnm _ _,
        Function.update_noteq hnm _ _, rfl⟩
  · rw [if_neg hm]
    exact ⟨rfl, rfl, rfl, rfl⟩

theorem runWave_preserves (ctx : EngineCtx) :
    ∀ (g : List String) (st : EngineState) (n : String), n ∉ g →
      (runWave ctx g st).2.status n = st.status n ∧
      (runWave ctx g st).2.error n = st.error n ∧
      (runWave ctx g st).2.duration n = st.duration n ∧
      (runWave ctx g st).2.outputs n = st.outputs n := by
  intro g
  induction g with
  | nil => intro st n _; exact ⟨rfl, rfl, rfl, rfl⟩
  | cons m rest ih =>
    intro st n hn
    have hnm : n ≠ m := fun h => hn (h ▸ List.mem_cons_self _ _)
    have hnr : n ∉ rest := fun h => hn (List.mem_cons_of_mem _ h)
    have h1 := stepNode_preserves ctx m st hnm
    have h2 := ih (stepNode ctx m st).2 n hnr
    refine ⟨?_, ?_, ?_, ?_⟩
    · rw [runWave]; rw [h2.1, h1.1]
    · rw [runWave]; rw [h2.2.1, h1.2.1]
    · rw [runWave]; rw [h2.2.2.1, h1.2.2.1]
    · rw [runWave]; rw [h2.2.2.2, h1.2.2.2]

theorem runWave_member (ctx : EngineCtx) :
    ∀ (g : List String) (st : EngineState) (n : String), g.Nodup →
      (∀ msg, nodeOutcomeInWave ctx g st n = some (.error msg) →
        (runWave ctx g st).2.status n = .failed ∧
        (runWave ctx g st).2.error n = some msg ∧
        (runWave ctx g st).2.duration n = some (ctx.durOf n)) ∧
      (∀ out, nodeOutcomeInWave ctx g st n = some (.ok out) →
        (runWave ctx g st).2.status n = .success ∧
        (runWave ctx g st).2.outputs n = some out ∧
        (runWave ctx g st).2.duration n = some (ctx.durOf n)) := by
  intro g
  induction g with
  | nil =>
    intro st n _
    constructor
    · intro msg h; cases h
    · intro out h; cases h
  | cons m rest ih =>
    intro st n hnd
    rcases List.nodup_cons.mp hnd with ⟨hmr, hndr⟩
    by_cases hmn : m = n
    · subst hmn
      have hnr : m ∉ rest := hmr
      have hpres := runWave_preserves ctx rest (stepNode ctx m st).2 m hnr
      constructor
      · intro msg h
        rw [nodeOutcomeInWave, if_pos rfl] at h
        by_cases hmem : m ∈ ctx.nodeIds
        · rw [if_pos hmem] at h
          have hexec : ctx.exec m (upstreamOf ctx st.outputs m) = .error msg :=
            Option.some.inj h
          rw [runWave]
          have hstep : (stepNode ctx m st).2.status m = .failed ∧
              (stepNode ctx m st).2.error m = some msg ∧
              (stepNode ctx m st).2.duration m = some (ctx.durOf m) := by
            unfold stepNode
            rw [if_pos hmem, hexec]
            exact ⟨Function.update_same _ _ _, Function.update_same _ _ _,
              Function.update_same _ _ _⟩
          exact ⟨hpres.1.trans hstep.1, hpres.2.1.trans hstep.2.1,
            hpres.2.2.1.trans hstep.2.2⟩
        · rw [if_neg hmem] at h
          cases h
      · intro out h
        rw [nodeOutcomeInWave, if_pos rfl] at h
        by_cases hmem : m ∈ ctx.nodeIds
        · rw [if_pos hmem] at h
          have hexec : ctx.exec m (upstreamOf ctx st.outputs m) = .ok out :=
            Option.some.inj h
          rw [runWave]
          have hstep : (stepNode ctx m st).2.status m = .success ∧
              (stepNode ctx m st).2.outputs m = some out ∧
              (stepNode ctx m st).2.duration m = some (ctx.durOf m) := by
            unfold stepNode
            rw [if_pos hmem, hexec]
            exact ⟨Function.update_same _ _ _, Function.update_same _ _ _,
              Function.update_same _ _ _⟩
          exact ⟨hpres.1.trans hstep.1, hpres.2.2.2.trans hstep.2.1,
            hpres.2.2.1.trans hstep.2.2⟩
        · rw [if_neg hmem] at h
          cases h
    · have hstep := ih (stepNode ctx m st).2 n hndr
      constructor
      · intro msg h
        rw [nodeOutcomeInWave, if_neg hmn] at h
        rw [runWave]
        exact hstep.1 msg h
      · intro out h
        rw [nodeOutcomeInWave, if_neg hmn] at h
        rw [runWave]
        exact hstep.2 out h

theorem runWaves_failAt (ctx : EngineCtx) :
    ∀ (groups : List (List String)) (st : EngineState) (i : Nat),
      i < groups.length →
      (∀ k, k < i →
        (runWave ctx (groups.getD k []) (stateAfterN ctx groups st k)).1 = false) →
      (runWave ctx (groups.getD i []) (stateAfterN ctx groups st i)).1 = true →
      runWaves ctx groups st =
        (.failed, (runWave ctx (groups.getD i []) (stateAfterN ctx groups st i)).2) := by
  intro groups
  induction groups with
  | nil =>
    intro st i hi _ _
    exact absurd hi (by simp)
  | cons g rest ih =>
    intro st i hi hpre hfail
    cases i with
    | zero =>
      rw [runWaves]
      have hflag : (runWave ctx g st).1 = true := hfail
      rw [hflag]
      rfl
    | succ k =>
      have h0 : (runWave ctx g st).1 = false := hpre 0 (Nat.succ_pos k)
      rw [runWaves, h0]
      simp only [Bool.false_eq_true, if_false]
      refine ih (runWave ctx g st).2 k (by simpa using hi) ?_ ?_
      · intro k' hk'
        exact hpre (k' + 1) (by omega)
      · exact hfail

theorem stateAfterN_preserves (ctx : EngineCtx) :
    ∀ (groups : List (List String)) (st : EngineState) (k : Nat) (n : String),
      (∀ j, j < k → n ∉ groups.getD j []) →
      (stateAfterN ctx groups st k).status n = st.status n := by
  intro groups
  induction groups with
  | nil =>
    intro st k n _
    cases k with
    | zero => rfl
    | succ k => rfl
  | cons g rest ih =>
    intro st k n hnot
    cases k with
    | zero => rfl
    | succ k =>
      rw [stateAfterN]
      rw [ih (runWave ctx g st).2 k n (fun j hj => hnot (j + 1) (by omega))]
      exact (runWave_preserves ctx g st n (hnot 0 (Nat.succ_pos k))).1

/-- **C6.** When the first failure happens in wave `i`: the run is
marked FAILED; the final state is exactly the state after wave `i`, so
no later wave is ever dispatched; every node confined to later waves
keeps its PENDING status; within wave `i`, a member whose executor
failed is marked FAILED with its error message and duration, and a
sibling whose executor succeeded is marked SUCCESS with its output. -/

theorem executeWorkflowNodes_failFast (ctx : EngineCtx)
    (groups : List (List String)) (i : Nat) (hi : i < groups.length)
    (hnodup : (groups.getD i []).Nodup)
    (hpre : ∀ k, k < i →
      (runWave ctx (groups.getD k [])
        (stateAfterN ctx groups initEngineState k)).1 = false)
    (hfail : (runWave ctx (groups.getD i [])
      (stateAfterN ctx groups initEngineState i)).1 = true) :
    (executeWorkflowNodes ctx groups).1 = .failed ∧
    (executeWorkflowNodes ctx groups).2 =
      (runWave ctx (groups.getD i [])
        (stateAfterN ctx groups initEngineState i)).2 ∧
    (∀ n, (∀ k, k ≤ i → n ∉ groups.getD k []) →
      (executeWorkflowNodes ctx groups).2.status n = .pending) ∧
    (∀ n msg, nodeOutcomeInWave ctx (groups.getD i [])
        (stateAfterN ctx groups initEngineState i) n = some (.error msg) →
      (executeWorkflowNodes ctx groups).2.status n = .failed ∧
      (executeWorkflowNodes ctx groups).2.error n = some msg ∧
      (executeWorkflowNodes ctx groups).2.duration n = some (ctx.durOf n)) ∧
    (∀ n out, nodeOutcomeInWave ctx (groups.getD i [])
        (stateAfterN ctx groups initEngineState i) n = some (.ok out) →
      (executeWorkflowNodes ctx groups).2.status n = .success ∧
      (executeWorkflowNodes ctx groups).2.outputs n = some out) := by
  have hrun := runWaves_failAt ctx groups initEngineState i hi hpre hfail
  have hfinal : executeWorkflowNodes ctx groups =
      (.failed, (runWave ctx (groups.getD i [])
        (stateAfterN ctx groups initEngineState i)).2) := hrun
  refine ⟨by rw [hfinal], by rw [hfinal], ?_, ?_, ?_⟩
  · intro n hnot
    rw [hfinal]
    have h1 := (runWave_preserves ctx (groups.getD i [])
      (stateAfterN ctx groups initEngineState i) n (hnot i (Nat.le_refl i))).1
    rw [h1, stateAfterN_preserves ctx groups initEngineState i n
      (fun j hj => hnot j (Nat.le_of_lt hj))]
    rfl
  · intro n msg h
    rw [hfinal]
    exact ((runWave_member ctx (groups.getD i [])
      (stateAfterN ctx groups initEngineState i) n hnodup).1 msg h).imp
      id (fun h2 => ⟨h2.1, h2.2⟩)
  · intro n out h
    rw [hfinal]
    have h2 := (runWave_member ctx (groups.getD i [])
      (stateAfterN ctx groups initEngineState i) n hnodup).2 out h
    exact ⟨h2.1, h2.2.1⟩

/-- Witness for C6 on the demo scenario: run FAILED, the failed node
carries its message and duration, the succeeding sibling shows SUCCESS,
the never-dispatched node stays PENDING, and the earlier wave's node
keeps its SUCCESS. -/

theorem executeWorkflowNodes_failFast_witness :
    (executeWorkflowNodes engineDemoCtx [["t"], ["c", "s"], ["z"]]).1 = .failed ∧
    (executeWorkflowNodes engineDemoCtx [["t"], ["c", "s"], ["z"]]).2.status "c" =
      .failed ∧
    (executeWorkflowNodes engineDemoCtx [["t"], ["c", "s"], ["z"]]).2.error "c" =
      some "No image input connected" ∧
    (executeWorkflowNodes engineDemoCtx [["t"], ["c", "s"], ["z"]]).2.duration "c" =
      some 5 ∧
    (executeWorkflowNodes engineDemoCtx [["t"], ["c", "s"], ["z"]]).2.status "s" =
      .success ∧
    (executeWorkflowNodes engineDemoCtx [["t"], ["c", "s"], ["z"]]).2.status "z" =
      .pending ∧
    (executeWorkflowNodes engineDemoCtx [["t"], ["c", "s"], ["z"]]).2.status "t" =
      .success := by
  have h := executeWorkflowNodes_failFast engineDemoCtx [["t"], ["c", "s"], ["z"]] 1
    (by decide) (by decide)
    (by
      intro k hk
      interval_cases k
      decide)
    (by decide)
  have hcfail := h.2.2.2.1 "c" "No image input connected" (by decide)
  have hsok := h.2.2.2.2 "s" "sib" (by decide)
  have hzpend := h.2.2.1 "z" (by
    intro k hk
    interval_cases k <;> decide)
  exact ⟨h.1, hcfail.1, hcfail.2.1, hcfail.2.2, hsok.1, hzpend, by decide⟩

end Weavy
